import Mathlib

/-!
# operatorutils: reconciliation builder, finalizer manager, try-get mapping, conditions and annotations

A shallow embedding of `operatorutils/controllerbuilder.go`,
`operatorutils/operatorutils.go` and `apicall/apicall.go`.

Conventions of the embedding:

* A Go `error` result is an `Option ApiError` (`none` is `nil`).  A failure
  raised with `ctx.Throw` and caught by `xhdl.RunContext` / `ctx.RunNested`
  is the `error` branch of an `Except ApiError _`.
* A `client.Object` is a pointer in Go.  Functions that receive it may change
  it, so they take the object and return the object they leave behind.
* The remote store is an abstract state `σ`; the `client.Client` interface is
  a record of functions over `σ`.
* Calls are made observable by a trace of events that the embedding appends to
  each time the source calls the store or a registered function.  Registered
  functions cannot see or change the trace.
* Trace/log output of the source (`log.V(..).Info`) has no effect on results
  and is not modelled.
* The clock read by `meta.SetStatusCondition` is a parameter `now`.
-/

namespace OperatorUtils

/-! ## Data model -/

/-- Failure values returned by the object store (`k8s.io/apimachinery/pkg/api/errors`
status reasons, reduced to the kinds named by the specification). -/
inductive ApiError where
  | notFound (msg : String)
  | conflict (msg : String)
  | unavailable (msg : String)
  | invalid (msg : String)
  deriving DecidableEq, Repr

/-- Modelled from the spec: `errors.IsNotFound` of apimachinery (not under src/),
the test that distinguishes the "not found" failure from every other failure. -/
def IsNotFound : ApiError → Bool
  | .notFound _ => true
  | _ => false

/-- The part of a `client.Object` the engine reads or writes: its key
(namespace and name), the deletion marker, the finalizer tokens, and the
remaining fields, which the engine never inspects. -/
structure Object where
  key : String
  deletionTimestamp : Option Nat
  finalizers : List String
  payload : String
  deriving DecidableEq, Repr

/-- Modelled from the spec: `controllerutil.ContainsFinalizer` of controller-runtime
(not under src/): the token is present in the object's finalizer set. -/
def ContainsFinalizer (o : Object) (finalizer : String) : Bool :=
  o.finalizers.contains finalizer

/-- Modelled from the spec: `controllerutil.AddFinalizer` of controller-runtime
(not under src/): the token is appended unless it is already present. -/
def AddFinalizer (o : Object) (finalizer : String) : Object :=
  if o.finalizers.contains finalizer then o
  else { o with finalizers := o.finalizers ++ [finalizer] }

/-- Modelled from the spec: `controllerutil.RemoveFinalizer` of controller-runtime
(not under src/): every occurrence of the token is dropped, the other tokens
keep their order. -/
def RemoveFinalizer (o : Object) (finalizer : String) : Object :=
  { o with finalizers := o.finalizers.filter (fun e => e != finalizer) }

/-- Source `type ResultAction string`. -/
abbrev ResultAction := String

/-- Source `ResultContinue ResultAction = "Continue"`. -/
def ResultContinue : ResultAction := "Continue"

/-- Source `ResultRequeue ResultAction = "Requeue"`. -/
def ResultRequeue : ResultAction := "Requeue"

/-- Source `ResultExit ResultAction = "Exit"`. -/
def ResultExit : ResultAction := "Exit"

/-- Source `type StepResult struct`; `time.Duration` is a signed integer. -/
structure StepResult where
  Action : ResultAction
  RequeueAfter : Int
  deriving DecidableEq, Repr

/-- Source `ctrl.Result` of controller-runtime: the reconcile outcome. -/
structure Result where
  Requeue : Bool
  RequeueAfter : Int
  deriving DecidableEq, Repr

/-- Source `ctrl.Result{}`, the empty outcome. -/
def Result.empty : Result := { Requeue := false, RequeueAfter := 0 }

/-- The calls the engine makes, in the order it makes them: a store get, a
finalizer cleanup function (with the token it is registered for and the object
handed to it), a store update (with the object sent), and a step (with its
position in the chain). -/
inductive Event where
  | get (key : String)
  | cleanup (token : String) (arg : Object)
  | update (obj : Object)
  | step (index : Nat)
  deriving DecidableEq, Repr

/-- The store together with the trace of calls made so far. -/
structure World (σ : Type) where
  store : σ
  trace : List Event

/-- The two methods of `client.Client` used by the engine. `Get` either fails
or yields the stored object; `Update` returns its error and the store it
leaves. -/
structure Client (σ : Type) where
  Get : String → σ → Except ApiError Object
  Update : Object → σ → Option ApiError × σ

/-- Source `type StepFn`: receives the object and the store handle, returns nothing;
it may throw, change the object and change the store. -/
abbrev StepFn (σ : Type) := Object → σ → Option ApiError × Object × σ

/-- Source `type StepWithResultFn`: as `StepFn`, but returns a `StepResult`. -/
abbrev StepWithResultFn (σ : Type) := Object → σ → Except ApiError StepResult × Object × σ

/-- Source `type finalizerRegistration struct`. -/
structure finalizerRegistration (σ : Type) where
  finalizer : String
  fn : StepFn σ

/-- Source `type controllerBuilder struct` (the logger is not modelled). -/
structure controllerBuilder (σ : Type) where
  client : Client σ
  Finalizers : List (finalizerRegistration σ)
  Steps : List (StepWithResultFn σ)

/-! ## apicall -/

/-- Source `ApiGetG`: `ctx.Throw(cl.Get(ctx, key, obj))`, then the object. -/
def ApiGetG {σ : Type} (cl : Client σ) (key : String) (w : World σ) :
    Except ApiError Object × World σ :=
  (cl.Get key w.store, { w with trace := w.trace ++ [Event.get key] })

/-- Source `ApiTryGetG`: runs `ApiGetG` nested; a not-found failure becomes the nil
object, any other failure is thrown again. -/
def ApiTryGetG {σ : Type} (cl : Client σ) (key : String) (w : World σ) :
    Except ApiError (Option Object) × World σ :=
  match ApiGetG cl key w with
  | (.error err, w1) =>
    if IsNotFound err then (.ok none, w1) else (.error err, w1)
  | (.ok obj, w1) => (.ok (some obj), w1)

/-- Source `ApiTryGet`: the caller's object is filled on success; `found` is false on
not-found, other failures are thrown. -/
def ApiTryGet {σ : Type} (cl : Client σ) (key : String) (obj : Object) (w : World σ) :
    Except ApiError (Bool × Object) × World σ :=
  let w1 : World σ := { w with trace := w.trace ++ [Event.get key] }
  match cl.Get key w.store with
  | .error err =>
    if IsNotFound err then (.ok (false, obj), w1) else (.error err, w1)
  | .ok o => (.ok (true, o), w1)

/-- Source `ApiUpdate`: `ctx.Throw(client.Update(ctx, obj))`. -/
def ApiUpdate {σ : Type} (cl : Client σ) (obj : Object) (w : World σ) :
    Option ApiError × World σ :=
  match cl.Update obj w.store with
  | (err, s1) => (err, { store := s1, trace := w.trace ++ [Event.update obj] })

/-! ## operatorutils -/

/-- Source `ProcessFinalizer`. The closure `finalizeFn` may reach the object and the
store through the variables it captures. Returns `(modified, err)`. -/
def ProcessFinalizer {σ : Type} (object : Object) (finalizer : String)
    (finalizeFn : StepFn σ) (w : World σ) : (Bool × Option ApiError) × Object × World σ :=
  let isMarkedToBeDeleted := object.deletionTimestamp.isSome
  if isMarkedToBeDeleted && ContainsFinalizer object finalizer then
    let object1 := RemoveFinalizer object finalizer
    match finalizeFn object1 w.store with
    | (err, object2, s2) =>
      ((true, err), object2,
        { store := s2, trace := w.trace ++ [Event.cleanup finalizer object1] })
  else if !ContainsFinalizer object finalizer then
    ((true, none), AddFinalizer object finalizer, w)
  else
    ((false, none), object, w)

/-- Source `finalizerRegistration.Run`. In the source the test for the token is
nested inside the test for the deletion marker and both fall through to the
"add finalizer" test when they fail. -/
def finalizerRegistration.Run {σ : Type} (fnreg : finalizerRegistration σ) (obj : Object)
    (w : World σ) : Except ApiError Bool × Object × World σ :=
  let isMarkedToBeDeleted := obj.deletionTimestamp.isSome
  if isMarkedToBeDeleted && ContainsFinalizer obj fnreg.finalizer then
    let obj1 := RemoveFinalizer obj fnreg.finalizer
    match fnreg.fn obj1 w.store with
    | (some e, obj2, s2) =>
      (.error e, obj2,
        { store := s2, trace := w.trace ++ [Event.cleanup fnreg.finalizer obj1] })
    | (none, obj2, s2) =>
      (.ok true, obj2,
        { store := s2, trace := w.trace ++ [Event.cleanup fnreg.finalizer obj1] })
  else if !ContainsFinalizer obj fnreg.finalizer then
    (.ok true, AddFinalizer obj fnreg.finalizer, w)
  else
    (.ok false, obj, w)

/-- Source `controllerBuilder.Finalizer`: appends a registration. -/
def controllerBuilder.Finalizer {σ : Type} (cb : controllerBuilder σ) (finalizer : String)
    (finalizeFn : StepFn σ) : controllerBuilder σ :=
  { cb with Finalizers := cb.Finalizers ++ [{ finalizer := finalizer, fn := finalizeFn }] }

/-- Source `controllerBuilder.StepWithResult`: appends a step. -/
def controllerBuilder.StepWithResult {σ : Type} (cb : controllerBuilder σ)
    (stepFn : StepWithResultFn σ) : controllerBuilder σ :=
  { cb with Steps := cb.Steps ++ [stepFn] }

/-- Source `controllerBuilder.Step`: wraps a `StepFn` into a step that returns
`StepResult{Action: ResultContinue}`. -/
def controllerBuilder.Step {σ : Type} (cb : controllerBuilder σ) (stepFn : StepFn σ) :
    controllerBuilder σ :=
  cb.StepWithResult (fun object s =>
    match stepFn object s with
    | (some e, object1, s1) => (.error e, object1, s1)
    | (none, object1, s1) => (.ok { Action := ResultContinue, RequeueAfter := 0 }, object1, s1))

/-- The loop `for _, fnreg := range cb.Finalizers` of `Build`. `some res` is
the outcome assigned before the `return` inside the loop, `none` means the
loop ran to its end. -/
def runFinalizers {σ : Type} (cl : Client σ) :
    List (finalizerRegistration σ) → Object → World σ →
      Except ApiError (Option Result) × Object × World σ
  | [], obj, w => (.ok none, obj, w)
  | fnreg :: rest, obj, w =>
    match fnreg.Run obj w with
    | (.error e, obj1, w1) => (.error e, obj1, w1)
    | (.ok true, obj1, w1) =>
      match ApiUpdate cl obj1 w1 with
      | (some e, w2) => (.error e, obj1, w2)
      | (none, w2) => (.ok (some { Requeue := true, RequeueAfter := 0 }), obj1, w2)
    | (.ok false, obj1, w1) => runFinalizers cl rest obj1 w1

/-- Lines 118-120 of `Build`: a nonzero delay forces the action to Requeue. -/
def applyDelay (sres : StepResult) : StepResult :=
  if sres.RequeueAfter != 0 then { sres with Action := ResultRequeue } else sres

/-- The loop `for _, step := range cb.Steps` of `Build`; `i` is the position
of the head of the list in the chain. The `switch` has no default case: an
action that is none of the three constants leaves the `switch` and the loop
goes on. -/
def runSteps {σ : Type} :
    List (StepWithResultFn σ) → Nat → Object → World σ →
      Except ApiError (Option Result) × Object × World σ
  | [], _, obj, w => (.ok none, obj, w)
  | step :: rest, i, obj, w =>
    match step obj w.store with
    | (.error e, obj1, s1) =>
      (.error e, obj1, { store := s1, trace := w.trace ++ [Event.step i] })
    | (.ok sres0, obj1, s1) =>
      let w1 : World σ := { store := s1, trace := w.trace ++ [Event.step i] }
      let sres := applyDelay sres0
      if sres.Action = ResultContinue then runSteps rest (i + 1) obj1 w1
      else if sres.Action = ResultExit then (.ok (some Result.empty), obj1, w1)
      else if sres.Action = ResultRequeue then
        (.ok (some { Requeue := true, RequeueAfter := sres.RequeueAfter }), obj1, w1)
      else runSteps rest (i + 1) obj1 w1

/-- What one call of the function returned by `Build` yields: the pair
`(res, err)` it returns and the world it leaves. -/
structure PassOutcome (σ : Type) where
  res : Result
  err : Option ApiError
  world : World σ

/-- The function returned by `controllerBuilder.Build`, applied to a trigger
with key `req`. `res` starts as `ctrl.Result{}` and is only assigned right
before a `return`; a thrown failure leaves it as it is. -/
def controllerBuilder.Build {σ : Type} (cb : controllerBuilder σ) (req : String)
    (w : World σ) : PassOutcome σ :=
  match ApiTryGetG cb.client req w with
  | (.error e, w1) => { res := Result.empty, err := some e, world := w1 }
  | (.ok none, w1) => { res := Result.empty, err := none, world := w1 }
  | (.ok (some obj), w1) =>
    match runFinalizers cb.client cb.Finalizers obj w1 with
    | (.error e, _, w2) => { res := Result.empty, err := some e, world := w2 }
    | (.ok (some res), _, w2) => { res := res, err := none, world := w2 }
    | (.ok none, obj2, w2) =>
      match runSteps cb.Steps 0 obj2 w2 with
      | (.error e, _, w3) => { res := Result.empty, err := some e, world := w3 }
      | (.ok (some res), _, w3) => { res := res, err := none, world := w3 }
      | (.ok none, _, w3) => { res := Result.empty, err := none, world := w3 }

/-- Source `New`: a builder with no registration. -/
def New {σ : Type} (client : Client σ) : controllerBuilder σ :=
  { client := client, Finalizers := [], Steps := [] }

/-! ## Vocabulary of the properties -/

/-- The world right after the engine's store get for `key`. -/
def afterGet {σ : Type} (w : World σ) (key : String) : World σ :=
  { w with trace := w.trace ++ [Event.get key] }

/-- A step result stops the chain when, after the delay rule, its action is
Exit or Requeue. -/
def stopsChain (sres : StepResult) : Bool :=
  (applyDelay sres).Action = ResultExit || (applyDelay sres).Action = ResultRequeue

/-- The steps of the list, run one after the other starting from the given
object and store, each return without failure a result that does not stop the
chain; the value is the object and the store the last of them leaves. -/
def passSteps {σ : Type} : List (StepWithResultFn σ) → Object → σ → Option (Object × σ)
  | [], obj, s => some (obj, s)
  | step :: rest, obj, s =>
    match step obj s with
    | (.ok sres, obj1, s1) => if stopsChain sres then none else passSteps rest obj1 s1
    | (.error _, _, _) => none

/-- The trigger reaches the step chain with object `obj`: the store get for
the key yields `obj`, and every registered finalizer reports "not mutated"
on it. -/
def ReachesSteps {σ : Type} (cb : controllerBuilder σ) (key : String) (w : World σ)
    (obj : Object) : Prop :=
  cb.client.Get key w.store = .ok obj ∧
    ∀ fnreg ∈ cb.Finalizers, (fnreg.Run obj (afterGet w key)).1 = .ok false

/-- The events of the steps at positions `0 .. n-1`, in order. -/
def stepEvents (n : Nat) : List Event :=
  (List.range n).map Event.step

/-! ## Example data -/

/-- An in-memory store: the objects it holds. -/
abbrev MemStore := List Object

/-- A client over the in-memory store: `Get` finds the object with the key or
fails with not-found; `Update` replaces the object with the same key or fails
with not-found. -/
def memClient : Client MemStore where
  Get := fun key s =>
    match s.find? (fun o => o.key == key) with
    | some o => .ok o
    | none => .error (.notFound key)
  Update := fun obj s =>
    if s.any (fun o => o.key == obj.key) then
      (none, s.map (fun o => if o.key == obj.key then obj else o))
    else (some (.notFound obj.key), s)

/-- A client whose `Get` works as in `memClient` and whose `Update` always
fails with a conflict. -/
def conflictClient : Client MemStore where
  Get := memClient.Get
  Update := fun obj s => (some (.conflict obj.key), s)

/-- A client whose `Get` always fails with an unavailable store. -/
def downClient : Client MemStore where
  Get := fun key _ => .error (.unavailable key)
  Update := memClient.Update

/-- A cleanup function that does nothing and does not fail. -/
def okCleanup : StepFn MemStore := fun o s => (none, o, s)

/-- A cleanup function that fails with the given error. -/
def failCleanup (e : ApiError) : StepFn MemStore := fun o s => (some e, o, s)

/-- A step that returns the given result. -/
def stepOf (r : StepResult) : StepWithResultFn MemStore := fun o s => (.ok r, o, s)

/-- A step that fails with the given error. -/
def failStep (e : ApiError) : StepWithResultFn MemStore := fun o s => (.error e, o, s)

/-- An object without deletion marker and without finalizer tokens. -/
def exFresh : Object :=
  { key := "ns/a", deletionTimestamp := none, finalizers := [], payload := "p" }

/-- An object without deletion marker that carries the tokens `a` and `b`. -/
def exReady : Object :=
  { key := "ns/a", deletionTimestamp := none, finalizers := ["a", "b"], payload := "p" }

/-- An object with deletion marker that carries the tokens `x`, `a` and `b`. -/
def exDeleting : Object :=
  { key := "ns/a", deletionTimestamp := some 7, finalizers := ["x", "a", "b"], payload := "p" }

/-- An object with deletion marker whose finalizer set does not contain `a`. -/
def exCleaned : Object :=
  { key := "ns/a", deletionTimestamp := some 7, finalizers := ["x"], payload := "p" }

/-- The registration of token `a` with a cleanup that does not fail. -/
def regA : finalizerRegistration MemStore := { finalizer := "a", fn := okCleanup }

/-- The registration of token `b` with a cleanup that does not fail. -/
def regB : finalizerRegistration MemStore := { finalizer := "b", fn := okCleanup }

/-- A world whose store holds the given object and whose trace is empty. -/
def worldOf (o : Object) : World MemStore := { store := [o], trace := [] }

/-- A builder over the given client with the finalizers `a` and `b` (in this
order) and one step that returns Continue. -/
def cbTwoFinalizers (cl : Client MemStore) : controllerBuilder MemStore :=
  (((New cl).Finalizer "a" okCleanup).Finalizer "b" okCleanup).StepWithResult
    (stepOf { Action := ResultContinue, RequeueAfter := 0 })

/-- A builder over the in-memory client with the finalizers `a` and `b` and
one step per given result, in the given order. -/
def cbSteps (rs : List StepResult) : controllerBuilder MemStore :=
  { client := memClient, Finalizers := [regA, regB], Steps := rs.map stepOf }

/-- A builder over the in-memory client whose finalizer `a` has a cleanup that
fails, followed by the finalizer `b` and one step. -/
def cbFailCleanup : controllerBuilder MemStore :=
  (((New memClient).Finalizer "a" (failCleanup (.invalid "cleanup"))).Finalizer "b"
    okCleanup).StepWithResult (stepOf { Action := ResultContinue, RequeueAfter := 0 })

/-- A builder over the in-memory client with the finalizers `a` and `b` and
three steps, the second of which fails. -/
def cbFailStep : controllerBuilder MemStore :=
  { client := memClient, Finalizers := [regA, regB],
    Steps := [stepOf { Action := ResultContinue, RequeueAfter := 0 },
      failStep (.unavailable "step"),
      stepOf { Action := ResultContinue, RequeueAfter := 0 }] }


/-! ## Conditions and annotations -/

/-- Source `metav1.Condition` of apimachinery: a typed status condition. The
field `type` is the Go field `Type`; a `LastTransitionTime` of `0` is the zero
time (`IsZero`). -/
structure Condition where
  type : String
  Status : String
  ObservedGeneration : Int
  LastTransitionTime : Nat
  Reason : String
  Message : String
  deriving DecidableEq, Repr

/-- Modelled from the spec: `meta.IsStatusConditionPresentAndEqual` of apimachinery
(not under src/), the "type+status equality" test: the first condition of the
given type decides, and the answer is false when there is none. -/
def meta_IsStatusConditionPresentAndEqual : List Condition → String → String → Bool
  | [], _, _ => false
  | c :: rest, conditionType, status =>
    if c.type = conditionType then c.Status = status
    else meta_IsStatusConditionPresentAndEqual rest conditionType status

/-- Modelled from the spec: `meta.SetStatusCondition` of apimachinery (not under
src/), as the doc comment of `SetStatusCondition` in `operatorutils.go`
describes it: if a condition of the type exists, its fields are set to those of
`newCondition`, and its `LastTransitionTime` is set (to the one given, or to
`now` when that is unset) only if the status differs; otherwise `newCondition`
is appended, with `LastTransitionTime` set to `now` if unset. -/
def meta_SetStatusCondition (now : Nat) : List Condition → Condition → List Condition
  | [], newCondition =>
    [if newCondition.LastTransitionTime = 0 then
        { newCondition with LastTransitionTime := now }
      else newCondition]
  | c :: rest, newCondition =>
    if c.type = newCondition.type then
      { type := c.type,
        Status := newCondition.Status,
        ObservedGeneration := newCondition.ObservedGeneration,
        LastTransitionTime :=
          if c.Status = newCondition.Status then c.LastTransitionTime
          else if newCondition.LastTransitionTime = 0 then now
          else newCondition.LastTransitionTime,
        Reason := newCondition.Reason,
        Message := newCondition.Message } :: rest
    else c :: meta_SetStatusCondition now rest newCondition

/-- Source `SetStatusCondition` of `operatorutils.go`. The slice behind the pointer
`conditions` is taken and returned; `now` is the reading of the clock. Returns
the flag and the conditions it leaves. -/
def SetStatusCondition (now : Nat) (conditions : List Condition) (newCondition : Condition) :
    Bool × List Condition :=
  if !meta_IsStatusConditionPresentAndEqual conditions newCondition.type newCondition.Status then
    (true, meta_SetStatusCondition now conditions newCondition)
  else
    (false, conditions)

/-- The first condition of the given type (`meta.FindStatusCondition`). -/
def findCondition : List Condition → String → Option Condition
  | [], _ => none
  | c :: rest, conditionType =>
    if c.type = conditionType then some c else findCondition rest conditionType

/-- Source `metav1.ObjectMeta`, reduced to its annotations. `none` is the nil map;
a Go map is held as the list of its entries, with at most one entry for a
key. -/
structure ObjectMeta where
  Annotations : Option (List (String × String))
  deriving DecidableEq, Repr

/-- The loop `for aname, value := range ...` of `GetAnnotation` over the
entries of the map. -/
def rangeAnnotations : List (String × String) → String → String
  | [], _ => ""
  | (aname, value) :: rest, name =>
    if name = aname then value else rangeAnnotations rest name

/-- Source `GetAnnotation`; ranging over the nil map runs no iteration. -/
def GetAnnotation (metadata : ObjectMeta) (name : String) : String :=
  match metadata.Annotations with
  | none => ""
  | some m => rangeAnnotations m name

/-- The Go map assignment `m[name] = value`: the entry for the key is replaced
or added. -/
def mapAssign (m : List (String × String)) (name value : String) : List (String × String) :=
  m.filter (fun e => e.1 != name) ++ [(name, value)]

/-- Source `SetAnnotation`: the map is made when it is nil, then the entry is
assigned. -/
def SetAnnotation (metadata : ObjectMeta) (name value : String) : ObjectMeta :=
  let annotations :=
    match metadata.Annotations with
    | none => []
    | some m => m
  { metadata with Annotations := some (mapAssign annotations name value) }

/-! ## Vocabulary of the later properties -/

/-- The world after `n` consecutive triggers for the same key, each pass
starting from the store and the trace the pass before it left. -/
def runPasses {σ : Type} (cb : controllerBuilder σ) (key : String) : Nat → World σ → World σ
  | 0, w => w
  | n + 1, w => runPasses cb key n (cb.Build key w).world

/-- The events one pass adds to the trace. -/
def passEvents {σ : Type} (cb : controllerBuilder σ) (key : String) (w : World σ) :
    List Event :=
  (cb.Build key w).world.trace.drop w.trace.length

/-- How often the cleanup registered for the token was invoked in a trace. -/
def cleanupCount (token : String) (tr : List Event) : Nat :=
  tr.countP (fun e =>
    match e with
    | .cleanup t _ => t == token
    | _ => false)

/-- The step that behaves as `st` but tags every result it returns with
Continue. -/
def asContinue {σ : Type} (st : StepWithResultFn σ) : StepWithResultFn σ :=
  fun o s =>
    match st o s with
    | (.ok r, o1, s1) => (.ok { Action := ResultContinue, RequeueAfter := r.RequeueAfter }, o1, s1)
    | (.error e, o1, s1) => (.error e, o1, s1)

/-- An object with deletion marker that carries exactly the tokens `a` and
`b`. -/
def exBoth : Object :=
  { key := "ns/a", deletionTimestamp := some 7, finalizers := ["a", "b"], payload := "p" }

/-- A condition list holding one `Ready` condition with status `True`. -/
def exConditions : List Condition :=
  [{ type := "Ready", Status := "True", ObservedGeneration := 1, LastTransitionTime := 10,
     Reason := "Started", Message := "up" }]

/-- A cleanup function that does not fail and writes into the payload of the
object it receives whether that object still carries the token `a`. -/
def probeCleanup : StepFn MemStore := fun o s =>
  (none, { o with payload := if ContainsFinalizer o "a" then "present" else "absent" }, s)

/-- The steps of the list, run one after the other starting from the given
object and store, each return Continue with zero delay, without failure, on
the object and store they are handed in this run; the value is the object and
the store the last of them leaves. -/
def continueSteps {σ : Type} : List (StepWithResultFn σ) → Object → σ → Option (Object × σ)
  | [], obj, s => some (obj, s)
  | step :: rest, obj, s =>
    match step obj s with
    | (.ok sres, obj1, s1) =>
      if sres = { Action := ResultContinue, RequeueAfter := 0 } then continueSteps rest obj1 s1
      else none
    | (.error _, _, _) => none

/-- A step whose result depends on the object it is handed: Continue with zero
delay when the payload is `p`, Requeue after 4 otherwise. It also rewrites the
payload, so that a second call would see another object. -/
def stepByPayload : StepWithResultFn MemStore := fun o s =>
  (.ok (if o.payload = "p" then { Action := ResultContinue, RequeueAfter := 0 }
        else { Action := ResultRequeue, RequeueAfter := 4 }),
    { o with payload := "seen" }, s)

/-- A builder over the in-memory client with the finalizers `a` and `b` and
two steps: the first returns Continue only when it is handed the payload `p`,
and rewrites the payload; the second returns Continue. -/
def cbInputSteps : controllerBuilder MemStore :=
  { client := memClient, Finalizers := [regA, regB],
    Steps := [stepByPayload, stepOf { Action := ResultContinue, RequeueAfter := 0 }] }

/-! ## Lemmas on the finalizer manager -/

theorem contains_iff_mem (o : Object) (t : String) :
    ContainsFinalizer o t = true ↔ t ∈ o.finalizers := by
  simp [ContainsFinalizer]

theorem Run_marked_present {σ : Type} (fnreg : finalizerRegistration σ) (obj : Object)
    (w : World σ) (hdel : obj.deletionTimestamp.isSome = true)
    (hin : fnreg.finalizer ∈ obj.finalizers) :
    fnreg.Run obj w =
      ((match (fnreg.fn (RemoveFinalizer obj fnreg.finalizer) w.store).1 with
        | some e => Except.error e
        | none => Except.ok true),
       (fnreg.fn (RemoveFinalizer obj fnreg.finalizer) w.store).2.1,
       { store := (fnreg.fn (RemoveFinalizer obj fnreg.finalizer) w.store).2.2,
         trace := w.trace ++
           [Event.cleanup fnreg.finalizer (RemoveFinalizer obj fnreg.finalizer)] }) := by
  have hc : ContainsFinalizer obj fnreg.finalizer = true := (contains_iff_mem _ _).2 hin
  unfold finalizerRegistration.Run
  simp only [hdel, hc, Bool.and_self, if_true]
  rcases h : fnreg.fn (RemoveFinalizer obj fnreg.finalizer) w.store with ⟨err, o2, s2⟩
  cases err <;> rfl

theorem Run_absent {σ : Type} (fnreg : finalizerRegistration σ) (obj : Object)
    (w : World σ) (hout : fnreg.finalizer ∉ obj.finalizers) :
    fnreg.Run obj w = (.ok true, AddFinalizer obj fnreg.finalizer, w) := by
  have hc : ContainsFinalizer obj fnreg.finalizer = false := by
    simpa [ContainsFinalizer] using hout
  unfold finalizerRegistration.Run
  simp [hc]

theorem Run_alive_present {σ : Type} (fnreg : finalizerRegistration σ) (obj : Object)
    (w : World σ) (halive : obj.deletionTimestamp = none)
    (hin : fnreg.finalizer ∈ obj.finalizers) :
    fnreg.Run obj w = (.ok false, obj, w) := by
  have hc : ContainsFinalizer obj fnreg.finalizer = true := (contains_iff_mem _ _).2 hin
  unfold finalizerRegistration.Run
  simp [hc, halive]

theorem Run_not_mutated {σ : Type} (fnreg : finalizerRegistration σ) (obj : Object)
    (w : World σ) (h : (fnreg.Run obj w).1 = .ok false) :
    fnreg.Run obj w = (.ok false, obj, w) := by
  by_cases hin : fnreg.finalizer ∈ obj.finalizers
  · cases hd : obj.deletionTimestamp with
    | none => exact Run_alive_present fnreg obj w hd hin
    | some t =>
      have hdel : obj.deletionTimestamp.isSome = true := by simp [hd]
      rw [Run_marked_present fnreg obj w hdel hin] at h
      simp only at h
      split at h <;> simp at h
  · rw [Run_absent fnreg obj w hin] at h
    simp at h

theorem Run_not_mutated_any {σ : Type} (fnreg : finalizerRegistration σ) (obj : Object)
    (w w' : World σ) (h : (fnreg.Run obj w).1 = .ok false) :
    fnreg.Run obj w' = (.ok false, obj, w') := by
  by_cases hin : fnreg.finalizer ∈ obj.finalizers
  · cases hd : obj.deletionTimestamp with
    | none => exact Run_alive_present fnreg obj w' hd hin
    | some t =>
      have hdel : obj.deletionTimestamp.isSome = true := by simp [hd]
      rw [Run_marked_present fnreg obj w hdel hin] at h
      simp only at h
      split at h <;> simp at h
  · rw [Run_absent fnreg obj w hin] at h
    simp at h

theorem runFinalizers_append_pass {σ : Type} (cl : Client σ)
    (pre rest : List (finalizerRegistration σ)) (obj : Object) (w : World σ)
    (hpre : ∀ fnreg ∈ pre, (fnreg.Run obj w).1 = .ok false) :
    runFinalizers cl (pre ++ rest) obj w = runFinalizers cl rest obj w := by
  induction pre with
  | nil => rfl
  | cons r pre ih =>
    have hr := Run_not_mutated r obj w (hpre r (List.mem_cons_self _ _))
    simp only [List.cons_append, runFinalizers, hr]
    exact ih (fun x hx => hpre x (List.mem_cons_of_mem _ hx))

theorem runFinalizers_pass {σ : Type} (cl : Client σ)
    (l : List (finalizerRegistration σ)) (obj : Object) (w : World σ)
    (hl : ∀ fnreg ∈ l, (fnreg.Run obj w).1 = .ok false) :
    runFinalizers cl l obj w = (.ok none, obj, w) := by
  have h := runFinalizers_append_pass cl l [] obj w hl
  simpa [runFinalizers] using h

/-! ## Lemmas on the step chain -/

theorem stepEvents_succ (n : Nat) : stepEvents (n + 1) = stepEvents n ++ [Event.step n] := by
  simp [stepEvents, List.range_succ]

theorem runSteps_append_pass {σ : Type} (pre rest : List (StepWithResultFn σ)) :
    ∀ (i : Nat) (obj : Object) (s : σ) (tr : List Event) (obj' : Object) (s' : σ),
      passSteps pre obj s = some (obj', s') →
      runSteps (pre ++ rest) i obj { store := s, trace := tr } =
        runSteps rest (i + pre.length) obj'
          { store := s', trace := tr ++ (List.range' i pre.length).map Event.step } := by
  induction pre with
  | nil =>
    intro i obj s tr obj' s' h
    simp [passSteps] at h
    obtain ⟨rfl, rfl⟩ := h
    simp
  | cons st pre ih =>
    intro i obj s tr obj' s' h
    simp only [passSteps] at h
    rcases hst : st obj s with ⟨r, o1, s1⟩
    rw [hst] at h
    cases r with
    | error e => simp at h
    | ok sres =>
      simp only at h
      by_cases hstop : stopsChain sres = true
      · simp [hstop] at h
      · simp only [hstop, Bool.false_eq_true, if_false] at h
        have hs : ¬ ((applyDelay sres).Action = ResultExit) ∧
            ¬ ((applyDelay sres).Action = ResultRequeue) := by
          simpa [stopsChain] using hstop
        have ih' := ih (i + 1) o1 s1 (tr ++ [Event.step i]) obj' s' h
        simp only [List.cons_append, runSteps, hst, hs.1, hs.2, if_false, ite_self]
        rw [List.append_eq, ih']
        have e1 : i + 1 + pre.length = i + (st :: pre).length := by
          simp [Nat.add_assoc, Nat.add_comm 1]
        have e2 : List.range' i (st :: pre).length = i :: List.range' (i + 1) pre.length := by
          simp [List.range']
        rw [e1, e2]
        simp

/-! ## Finalizer manager: the claims -/

/-- C1 (the code departs from the claim): on an object with a deletion marker
whose finalizer set does not contain the token, `finalizerRegistration.Run` and
`ProcessFinalizer` do not invoke the cleanup, but they add the token and report
"mutated"; and the second pass of the deletion flow, run on what the first pass
left, puts the removed token back and reports "mutated". -/
theorem C1_deleted_without_token_is_mutated :
    (regA.Run exCleaned (worldOf exCleaned)).1 = .ok true ∧
    (regA.Run exCleaned (worldOf exCleaned)).2.1.finalizers = ["x", "a"] ∧
    (regA.Run exCleaned (worldOf exCleaned)).2.2.trace = [] ∧
    (ProcessFinalizer exCleaned "a" okCleanup (worldOf exCleaned)).1 = (true, none) ∧
    (ProcessFinalizer exCleaned "a" okCleanup (worldOf exCleaned)).2.1.finalizers = ["x", "a"] ∧
    (ProcessFinalizer exCleaned "a" okCleanup (worldOf exCleaned)).2.2.trace = [] ∧
    (regA.Run exDeleting (worldOf exDeleting)).2.1.finalizers = ["x", "b"] ∧
    (regA.Run (regA.Run exDeleting (worldOf exDeleting)).2.1
        (regA.Run exDeleting (worldOf exDeleting)).2.2).1 = .ok true ∧
    (regA.Run (regA.Run exDeleting (worldOf exDeleting)).2.1
        (regA.Run exDeleting (worldOf exDeleting)).2.2).2.1.finalizers = ["x", "b", "a"] := by
  refine ⟨rfl, rfl, rfl, rfl, rfl, rfl, rfl, rfl, rfl⟩

/-- C2: on an object with a deletion marker whose finalizer set contains the
token, one `finalizerRegistration.Run` with a cleanup that does not fail reports
"mutated" and invokes the cleanup exactly once (one cleanup event is added to
the trace, nothing else); the object handed to the cleanup is the given object
with exactly that token dropped from the finalizer set, and `Run` leaves the
object the cleanup leaves. So when the cleanup itself does not touch the
finalizer set, the resulting set is the original one without the token: the
token is gone and every other token is kept. -/
theorem C2_run_deletion_flow {σ : Type} (fnreg : finalizerRegistration σ) (obj : Object)
    (w : World σ) (hdel : obj.deletionTimestamp ≠ none)
    (hin : fnreg.finalizer ∈ obj.finalizers)
    (hok : (fnreg.fn (RemoveFinalizer obj fnreg.finalizer) w.store).1 = none) :
    (fnreg.Run obj w).1 = .ok true ∧
    (fnreg.Run obj w).2.2.trace =
      w.trace ++ [Event.cleanup fnreg.finalizer (RemoveFinalizer obj fnreg.finalizer)] ∧
    (RemoveFinalizer obj fnreg.finalizer).finalizers =
      obj.finalizers.filter (fun t => t != fnreg.finalizer) ∧
    (fnreg.Run obj w).2.1 = (fnreg.fn (RemoveFinalizer obj fnreg.finalizer) w.store).2.1 ∧
    ((fnreg.fn (RemoveFinalizer obj fnreg.finalizer) w.store).2.1.finalizers =
        (RemoveFinalizer obj fnreg.finalizer).finalizers →
      (fnreg.Run obj w).2.1.finalizers =
          obj.finalizers.filter (fun t => t != fnreg.finalizer) ∧
        fnreg.finalizer ∉ (fnreg.Run obj w).2.1.finalizers ∧
        ∀ t, t ≠ fnreg.finalizer →
          (t ∈ (fnreg.Run obj w).2.1.finalizers ↔ t ∈ obj.finalizers)) := by
  have hd : obj.deletionTimestamp.isSome = true := by
    cases h : obj.deletionTimestamp with
    | none => exact absurd h hdel
    | some t => rfl
  rw [Run_marked_present fnreg obj w hd hin, hok]
  refine ⟨rfl, rfl, rfl, rfl, ?_⟩
  intro hframe
  simp only [hframe]
  refine ⟨rfl, ?_, ?_⟩
  · simp [RemoveFinalizer]
  · intro t ht
    simp [RemoveFinalizer, ht]

/-- Witness of C2: the registration of `a` on the deleting object with tokens
`x`, `a`, `b`. -/
theorem C2_run_deletion_flow_witness :
    (regA.Run exDeleting (worldOf exDeleting)).1 = .ok true ∧
    (regA.Run exDeleting (worldOf exDeleting)).2.2.trace =
      [Event.cleanup "a" { exDeleting with finalizers := ["x", "b"] }] ∧
    (regA.Run exDeleting (worldOf exDeleting)).2.1.finalizers = ["x", "b"] := by
  have h := C2_run_deletion_flow regA exDeleting (worldOf exDeleting)
    (by decide) (by decide) rfl
  exact ⟨h.1, h.2.1, (h.2.2.2.2 rfl).1⟩

/-- C3: on an object without deletion marker, two consecutive runs of the
finalizer manager (`finalizerRegistration.Run`, and likewise `ProcessFinalizer`)
never invoke the cleanup (store and trace stay as they were); the first run
reports "mutated" exactly when the token was absent and leaves the token
present; the second run reports "not mutated" and leaves the object as the
first run left it. -/
theorem C3_finalizer_idempotence {σ : Type} (fnreg : finalizerRegistration σ)
    (obj : Object) (w : World σ) (halive : obj.deletionTimestamp = none) :
    (fnreg.Run obj w).1 = .ok (decide (fnreg.finalizer ∉ obj.finalizers)) ∧
    fnreg.finalizer ∈ (fnreg.Run obj w).2.1.finalizers ∧
    (fnreg.Run obj w).2.2 = w ∧
    fnreg.Run (fnreg.Run obj w).2.1 (fnreg.Run obj w).2.2 =
      (.ok false, (fnreg.Run obj w).2.1, w) ∧
    (ProcessFinalizer obj fnreg.finalizer fnreg.fn w).1 =
      (decide (fnreg.finalizer ∉ obj.finalizers), none) ∧
    fnreg.finalizer ∈ (ProcessFinalizer obj fnreg.finalizer fnreg.fn w).2.1.finalizers ∧
    (ProcessFinalizer obj fnreg.finalizer fnreg.fn w).2.2 = w ∧
    ProcessFinalizer (ProcessFinalizer obj fnreg.finalizer fnreg.fn w).2.1 fnreg.finalizer
        fnreg.fn (ProcessFinalizer obj fnreg.finalizer fnreg.fn w).2.2 =
      ((false, none), (ProcessFinalizer obj fnreg.finalizer fnreg.fn w).2.1, w) := by
  by_cases hin : fnreg.finalizer ∈ obj.finalizers
  · have hc : ContainsFinalizer obj fnreg.finalizer = true := (contains_iff_mem _ _).2 hin
    have hp : ProcessFinalizer obj fnreg.finalizer fnreg.fn w = ((false, none), obj, w) := by
      unfold ProcessFinalizer
      simp [hc, halive]
    rw [Run_alive_present fnreg obj w halive hin, hp]
    simp only [Run_alive_present fnreg obj w halive hin, hp]
    simp [hin]
  · have hc : ContainsFinalizer obj fnreg.finalizer = false := by
      simpa [ContainsFinalizer] using hin
    have hadd : fnreg.finalizer ∈ (AddFinalizer obj fnreg.finalizer).finalizers := by
      simp [AddFinalizer, hin]
    have hadd' : ContainsFinalizer (AddFinalizer obj fnreg.finalizer) fnreg.finalizer = true :=
      (contains_iff_mem _ _).2 hadd
    have halive' : (AddFinalizer obj fnreg.finalizer).deletionTimestamp = none := by
      simp [AddFinalizer, hin, halive]
    have hp : ProcessFinalizer obj fnreg.finalizer fnreg.fn w =
        ((true, none), AddFinalizer obj fnreg.finalizer, w) := by
      unfold ProcessFinalizer
      simp [hc]
    have hp2 : ProcessFinalizer (AddFinalizer obj fnreg.finalizer) fnreg.finalizer fnreg.fn w =
        ((false, none), AddFinalizer obj fnreg.finalizer, w) := by
      unfold ProcessFinalizer
      simp [hadd', halive']
    rw [Run_absent fnreg obj w hin, hp]
    simp only [Run_alive_present fnreg _ w halive' hadd, hp2]
    simp [hin, hadd]

/-- Witness of C3: the registration of `a` on the fresh object. -/
theorem C3_finalizer_idempotence_witness :
    (regA.Run exFresh (worldOf exFresh)).1 = .ok true ∧
    (regA.Run (regA.Run exFresh (worldOf exFresh)).2.1
      (regA.Run exFresh (worldOf exFresh)).2.2).1 = .ok false := by
  have h := C3_finalizer_idempotence regA exFresh (worldOf exFresh) rfl
  refine ⟨?_, ?_⟩
  · rw [h.1]; rfl
  · rw [h.2.2.2.1]

/-! ## Lemmas on the reconcile entry point -/

theorem Build_of_get_ok {σ : Type} (cb : controllerBuilder σ) (key : String) (w : World σ)
    (obj : Object) (hget : cb.client.Get key w.store = .ok obj) :
    cb.Build key w =
      match runFinalizers cb.client cb.Finalizers obj (afterGet w key) with
      | (.error e, _, w2) => { res := Result.empty, err := some e, world := w2 }
      | (.ok (some res), _, w2) => { res := res, err := none, world := w2 }
      | (.ok none, obj2, w2) =>
        match runSteps cb.Steps 0 obj2 w2 with
        | (.error e, _, w3) => { res := Result.empty, err := some e, world := w3 }
        | (.ok (some res), _, w3) => { res := res, err := none, world := w3 }
        | (.ok none, _, w3) => { res := Result.empty, err := none, world := w3 } := by
  simp only [controllerBuilder.Build, ApiTryGetG, ApiGetG, hget, afterGet]

theorem Build_of_reaches {σ : Type} (cb : controllerBuilder σ) (key : String) (w : World σ)
    (obj : Object) (h : ReachesSteps cb key w obj) :
    cb.Build key w =
      match runSteps cb.Steps 0 obj (afterGet w key) with
      | (.error e, _, w3) => { res := Result.empty, err := some e, world := w3 }
      | (.ok (some res), _, w3) => { res := res, err := none, world := w3 }
      | (.ok none, _, w3) => { res := Result.empty, err := none, world := w3 } := by
  rw [Build_of_get_ok cb key w obj h.1, runFinalizers_pass cb.client cb.Finalizers obj _ h.2]

theorem Build_of_mutation {σ : Type} (cb : controllerBuilder σ) (key : String) (w : World σ)
    (obj : Object) (pre post : List (finalizerRegistration σ)) (r : finalizerRegistration σ)
    (hget : cb.client.Get key w.store = .ok obj)
    (hfin : cb.Finalizers = pre ++ r :: post)
    (hpre : ∀ fnreg ∈ pre, (fnreg.Run obj (afterGet w key)).1 = .ok false) :
    cb.Build key w =
      match r.Run obj (afterGet w key) with
      | (.error e, _, w1) => { res := Result.empty, err := some e, world := w1 }
      | (.ok true, obj1, w1) =>
        match cb.client.Update obj1 w1.store with
        | (some e, s2) =>
          { res := Result.empty, err := some e,
            world := { store := s2, trace := w1.trace ++ [Event.update obj1] } }
        | (none, s2) =>
          { res := { Requeue := true, RequeueAfter := 0 }, err := none,
            world := { store := s2, trace := w1.trace ++ [Event.update obj1] } }
      | (.ok false, obj1, w1) =>
        match runFinalizers cb.client post obj1 w1 with
        | (.error e, _, w2) => { res := Result.empty, err := some e, world := w2 }
        | (.ok (some res), _, w2) => { res := res, err := none, world := w2 }
        | (.ok none, obj2, w2) =>
          match runSteps cb.Steps 0 obj2 w2 with
          | (.error e, _, w3) => { res := Result.empty, err := some e, world := w3 }
          | (.ok (some res), _, w3) => { res := res, err := none, world := w3 }
          | (.ok none, _, w3) => { res := Result.empty, err := none, world := w3 } := by
  rw [Build_of_get_ok cb key w obj hget, hfin,
    runFinalizers_append_pass cb.client pre (r :: post) obj _ hpre]
  simp only [runFinalizers]
  rcases hr : r.Run obj (afterGet w key) with ⟨res, o1, w1⟩
  cases res with
  | error e => rfl
  | ok b =>
    cases b with
    | false => rfl
    | true =>
      rcases hu : cb.client.Update o1 w1.store with ⟨err, s2⟩
      simp only [ApiUpdate, hu]
      cases err <;> rfl

theorem applyDelay_delay (sres : StepResult) :
    (applyDelay sres).RequeueAfter = sres.RequeueAfter := by
  unfold applyDelay
  split <;> rfl

theorem applyDelay_of_nonzero (sres : StepResult) (h : sres.RequeueAfter ≠ 0) :
    (applyDelay sres).Action = ResultRequeue := by
  simp [applyDelay, h]

theorem applyDelay_of_zero (sres : StepResult) (h : sres.RequeueAfter = 0) :
    applyDelay sres = sres := by
  simp [applyDelay, h]

theorem exit_ne_requeue : ResultExit ≠ ResultRequeue := by decide

theorem exit_ne_continue : ResultExit ≠ ResultContinue := by decide

theorem requeue_ne_continue : ResultRequeue ≠ ResultContinue := by decide

theorem runSteps_stop {σ : Type} (pre post : List (StepWithResultFn σ))
    (st : StepWithResultFn σ) (obj : Object) (w : World σ) (obj' o1 : Object) (s' s1 : σ)
    (sres : StepResult)
    (hpre : passSteps pre obj w.store = some (obj', s'))
    (hst : st obj' s' = (.ok sres, o1, s1))
    (hstop : stopsChain sres = true) :
    runSteps (pre ++ st :: post) 0 obj w =
      (.ok (some (if (applyDelay sres).Action = ResultExit then Result.empty
          else { Requeue := true, RequeueAfter := sres.RequeueAfter })), o1,
        { store := s1, trace := w.trace ++ stepEvents (pre.length + 1) }) := by
  have h := runSteps_append_pass pre (st :: post) 0 obj w.store w.trace obj' s' hpre
  have hw : ({ store := w.store, trace := w.trace } : World σ) = w := rfl
  rw [hw] at h
  rw [h]
  have hev : w.trace ++ List.map Event.step (List.range' 0 pre.length) ++ [Event.step (0 + pre.length)]
      = w.trace ++ stepEvents (pre.length + 1) := by
    simp [stepEvents, List.range_succ, List.range_eq_range']
  simp only [runSteps, hst, hev]
  have hs : (applyDelay sres).Action = ResultExit ∨ (applyDelay sres).Action = ResultRequeue := by
    simpa [stopsChain] using hstop
  rcases hs with hs | hs
  · simp [hs, exit_ne_continue]
  · simp [hs, requeue_ne_continue, exit_ne_requeue.symm, applyDelay_delay]

theorem runSteps_fail {σ : Type} (pre post : List (StepWithResultFn σ))
    (st : StepWithResultFn σ) (obj : Object) (w : World σ) (obj' o1 : Object) (s' s1 : σ)
    (e : ApiError)
    (hpre : passSteps pre obj w.store = some (obj', s'))
    (hst : st obj' s' = (.error e, o1, s1)) :
    runSteps (pre ++ st :: post) 0 obj w =
      (.error e, o1, { store := s1, trace := w.trace ++ stepEvents (pre.length + 1) }) := by
  have h := runSteps_append_pass pre (st :: post) 0 obj w.store w.trace obj' s' hpre
  have hw : ({ store := w.store, trace := w.trace } : World σ) = w := rfl
  rw [hw] at h
  rw [h]
  have hev : w.trace ++ List.map Event.step (List.range' 0 pre.length) ++ [Event.step (0 + pre.length)]
      = w.trace ++ stepEvents (pre.length + 1) := by
    simp [stepEvents, List.range_succ, List.range_eq_range']
  simp only [runSteps, hst, hev]

theorem runSteps_all_pass {σ : Type} (steps : List (StepWithResultFn σ))
    (obj : Object) (w : World σ) (obj' : Object) (s' : σ)
    (hall : passSteps steps obj w.store = some (obj', s')) :
    runSteps steps 0 obj w =
      (.ok none, obj', { store := s', trace := w.trace ++ stepEvents steps.length }) := by
  have h := runSteps_append_pass steps [] 0 obj w.store w.trace obj' s' hall
  have hw : ({ store := w.store, trace := w.trace } : World σ) = w := rfl
  rw [hw] at h
  simp only [List.append_nil] at h
  rw [h]
  simp [runSteps, stepEvents, List.range_eq_range']

theorem passSteps_of_all_continue {σ : Type} (steps : List (StepWithResultFn σ))
    (hall : ∀ st ∈ steps, ∀ o s, (st o s).1 = .ok { Action := ResultContinue, RequeueAfter := 0 }) :
    ∀ (obj : Object) (s : σ), ∃ p, passSteps steps obj s = some p := by
  induction steps with
  | nil => intro obj s; exact ⟨(obj, s), rfl⟩
  | cons st rest ih =>
    intro obj s
    have h1 := hall st (List.mem_cons_self _ _) obj s
    rcases hst : st obj s with ⟨r, o1, s1⟩
    rw [hst] at h1
    simp only at h1
    subst h1
    have hns : stopsChain { Action := ResultContinue, RequeueAfter := 0 } = false := by decide
    obtain ⟨p, hp⟩ := ih (fun x hx => hall x (List.mem_cons_of_mem _ hx)) o1 s1
    exact ⟨p, by simp [passSteps, hst, hns, hp]⟩

theorem Run_trace_cases {σ : Type} (fnreg : finalizerRegistration σ) (obj : Object)
    (w : World σ) :
    (fnreg.Run obj w).2.2.trace = w.trace ∨
    (fnreg.Run obj w).2.2.trace =
      w.trace ++ [Event.cleanup fnreg.finalizer (RemoveFinalizer obj fnreg.finalizer)] := by
  by_cases hin : fnreg.finalizer ∈ obj.finalizers
  · cases hd : obj.deletionTimestamp with
    | none => left; rw [Run_alive_present fnreg obj w hd hin]
    | some t =>
      have hdel : obj.deletionTimestamp.isSome = true := by simp [hd]
      right; rw [Run_marked_present fnreg obj w hdel hin]
  · left; rw [Run_absent fnreg obj w hin]

/-! ## Reconcile entry point: the claims -/

/-- C4 (counterexample): with the finalizers `a` and `b` registered, a fresh
object and a store whose Update fails with a conflict, the first registration
reports "mutated", yet the outcome is not requeue=true: the pass returns the
empty outcome together with the conflict. -/
theorem C4_counterexample_update_fails :
    (regA.Run exFresh (afterGet (worldOf exFresh) "ns/a")).1 = .ok true ∧
    ((cbTwoFinalizers conflictClient).Build "ns/a" (worldOf exFresh)).res ≠
      { Requeue := true, RequeueAfter := 0 } ∧
    ((cbTwoFinalizers conflictClient).Build "ns/a" (worldOf exFresh)).res = Result.empty ∧
    ((cbTwoFinalizers conflictClient).Build "ns/a" (worldOf exFresh)).err =
      some (.conflict "ns/a") := by
  refine ⟨rfl, by decide, rfl, rfl⟩

theorem Build_mutated {σ : Type} (cb : controllerBuilder σ) (key : String)
    (w : World σ) (obj : Object) (pre post : List (finalizerRegistration σ))
    (r : finalizerRegistration σ)
    (hget : cb.client.Get key w.store = .ok obj)
    (hfin : cb.Finalizers = pre ++ r :: post)
    (hpre : ∀ fnreg ∈ pre, (fnreg.Run obj (afterGet w key)).1 = .ok false)
    (hmut : (r.Run obj (afterGet w key)).1 = .ok true) :
    (cb.Build key w).world.trace =
      (r.Run obj (afterGet w key)).2.2.trace ++ [Event.update (r.Run obj (afterGet w key)).2.1] ∧
    (cb.Build key w).world.store =
      (cb.client.Update (r.Run obj (afterGet w key)).2.1
        (r.Run obj (afterGet w key)).2.2.store).2 ∧
    ((cb.client.Update (r.Run obj (afterGet w key)).2.1
        (r.Run obj (afterGet w key)).2.2.store).1 = none →
      (cb.Build key w).res = { Requeue := true, RequeueAfter := 0 } ∧
      (cb.Build key w).err = none) ∧
    (∀ e, (cb.client.Update (r.Run obj (afterGet w key)).2.1
        (r.Run obj (afterGet w key)).2.2.store).1 = some e →
      (cb.Build key w).res = Result.empty ∧ (cb.Build key w).err = some e) := by
  rw [Build_of_mutation cb key w obj pre post r hget hfin hpre]
  rcases hr : r.Run obj (afterGet w key) with ⟨res, o1, w1⟩
  rw [hr] at hmut
  simp only at hmut
  subst hmut
  simp only
  rcases hu : cb.client.Update o1 w1.store with ⟨err, s2⟩
  cases err with
  | none => simp
  | some e => simp

/-- C4 (amended): when the store yields an object and, among the registered
finalizers, `r` is the first that reports "mutated" on it, then the pass
evaluates nothing after `r`: besides the store get, the trace holds at most the
cleanup of `r` and then exactly one Update, whose argument is the object as
`r` left it; no later registration and no step appears. If that Update
succeeds the outcome is requeue=true with zero delay and no error; if it fails
with `e` the pass returns `e` with the empty outcome. -/
theorem C4_first_mutation_stops_pass {σ : Type} (cb : controllerBuilder σ) (key : String)
    (w : World σ) (obj : Object) (pre post : List (finalizerRegistration σ))
    (r : finalizerRegistration σ)
    (hget : cb.client.Get key w.store = .ok obj)
    (hfin : cb.Finalizers = pre ++ r :: post)
    (hpre : ∀ fnreg ∈ pre, (fnreg.Run obj (afterGet w key)).1 = .ok false)
    (hmut : (r.Run obj (afterGet w key)).1 = .ok true) :
    ((r.Run obj (afterGet w key)).2.2.trace = w.trace ++ [Event.get key] ∨
      (r.Run obj (afterGet w key)).2.2.trace =
        w.trace ++ [Event.get key] ++
          [Event.cleanup r.finalizer (RemoveFinalizer obj r.finalizer)]) ∧
    (cb.Build key w).world.trace =
      (r.Run obj (afterGet w key)).2.2.trace ++ [Event.update (r.Run obj (afterGet w key)).2.1] ∧
    (cb.Build key w).world.store =
      (cb.client.Update (r.Run obj (afterGet w key)).2.1
        (r.Run obj (afterGet w key)).2.2.store).2 ∧
    ((cb.client.Update (r.Run obj (afterGet w key)).2.1
        (r.Run obj (afterGet w key)).2.2.store).1 = none →
      (cb.Build key w).res = { Requeue := true, RequeueAfter := 0 } ∧
      (cb.Build key w).err = none) ∧
    (∀ e, (cb.client.Update (r.Run obj (afterGet w key)).2.1
        (r.Run obj (afterGet w key)).2.2.store).1 = some e →
      (cb.Build key w).res = Result.empty ∧ (cb.Build key w).err = some e) := by
  exact ⟨Run_trace_cases r obj (afterGet w key),
    Build_mutated cb key w obj pre post r hget hfin hpre hmut⟩

/-- Witness of C4: finalizers `a` and `b` on a fresh object held by the
in-memory store: only `a` is added, one Update is sent, no step runs, and the
outcome is requeue=true with zero delay. -/
theorem C4_first_mutation_stops_pass_witness :
    ((cbTwoFinalizers memClient).Build "ns/a" (worldOf exFresh)).world.trace =
      [Event.get "ns/a", Event.update { exFresh with finalizers := ["a"] }] ∧
    ((cbTwoFinalizers memClient).Build "ns/a" (worldOf exFresh)).res =
      { Requeue := true, RequeueAfter := 0 } ∧
    ((cbTwoFinalizers memClient).Build "ns/a" (worldOf exFresh)).err = none := by
  have h := C4_first_mutation_stops_pass (cbTwoFinalizers memClient) "ns/a" (worldOf exFresh)
    exFresh [] [regB] regA rfl rfl (by simp) rfl
  exact ⟨h.2.1, h.2.2.2.1 rfl⟩

theorem Build_stop {σ : Type} (cb : controllerBuilder σ) (key : String) (w : World σ)
    (obj : Object) (pre post : List (StepWithResultFn σ)) (st : StepWithResultFn σ)
    (obj' : Object) (s' : σ) (sres : StepResult)
    (hreach : ReachesSteps cb key w obj)
    (hsteps : cb.Steps = pre ++ st :: post)
    (hpre : passSteps pre obj w.store = some (obj', s'))
    (hst : (st obj' s').1 = .ok sres)
    (hstop : stopsChain sres = true) :
    cb.Build key w =
      { res := if (applyDelay sres).Action = ResultExit then Result.empty
          else { Requeue := true, RequeueAfter := sres.RequeueAfter },
        err := none,
        world := { store := (st obj' s').2.2,
                   trace := w.trace ++ [Event.get key] ++ stepEvents (pre.length + 1) } } := by
  rcases hs : st obj' s' with ⟨r, o1, s1⟩
  rw [hs] at hst
  simp only at hst
  subst hst
  rw [Build_of_reaches cb key w obj hreach, hsteps,
    runSteps_stop pre post st obj (afterGet w key) obj' o1 s' s1 sres hpre hs hstop]
  rfl

/-- C5 (counterexample): a chain of two steps in which the first returns the
empty action with zero delay and the second returns Continue. The first step's
result is not Continue, also after the delay rule, and yet the chain does not
stop after it: the second step is invoked. -/
theorem C5_counterexample_unknown_action :
    (applyDelay { Action := "", RequeueAfter := 0 }).Action ≠ ResultContinue ∧
    ((cbSteps [{ Action := "", RequeueAfter := 0 },
        { Action := ResultContinue, RequeueAfter := 0 }]).Build "ns/a"
      (worldOf exReady)).world.trace = [Event.get "ns/a", Event.step 0, Event.step 1] := by
  refine ⟨by decide, rfl⟩

/-- C5 (amended): when the trigger reaches the step chain, the steps are
invoked in registration order, each at most once, and the chain stops after the
first step whose result, after the delay rule, is Exit or Requeue: when the
steps before `st` each return without failure a result that does not stop the
chain and `st` returns one that does, the step events of the pass are exactly
those of positions `0` to the position of `st`, in order; and when no step
stops the chain or fails, every step is invoked once, in order. -/
theorem C5_step_ordering {σ : Type} (cb : controllerBuilder σ) (key : String) (w : World σ)
    (obj : Object) (hreach : ReachesSteps cb key w obj) :
    (∀ (pre post : List (StepWithResultFn σ)) (st : StepWithResultFn σ) (obj' : Object)
        (s' : σ) (sres : StepResult),
      cb.Steps = pre ++ st :: post →
      passSteps pre obj w.store = some (obj', s') →
      (st obj' s').1 = .ok sres →
      stopsChain sres = true →
      (cb.Build key w).world.trace =
        w.trace ++ [Event.get key] ++ stepEvents (pre.length + 1)) ∧
    (∀ p, passSteps cb.Steps obj w.store = some p →
      (cb.Build key w).world.trace =
        w.trace ++ [Event.get key] ++ stepEvents cb.Steps.length) := by
  refine ⟨?_, ?_⟩
  · intro pre post st obj' s' sres hsteps hpre hst hstop
    rw [Build_stop cb key w obj pre post st obj' s' sres hreach hsteps hpre hst hstop]
  · intro p hp
    rw [Build_of_reaches cb key w obj hreach,
      runSteps_all_pass cb.Steps obj (afterGet w key) p.1 p.2 hp]
    rfl

/-- Witness of C5: steps returning Continue, Continue, Exit are all invoked;
steps returning Exit, Continue, Continue invoke only the first. -/
theorem C5_step_ordering_witness :
    ((cbSteps [{ Action := ResultContinue, RequeueAfter := 0 },
        { Action := ResultContinue, RequeueAfter := 0 },
        { Action := ResultExit, RequeueAfter := 0 }]).Build "ns/a"
      (worldOf exReady)).world.trace =
        [Event.get "ns/a", Event.step 0, Event.step 1, Event.step 2] ∧
    ((cbSteps [{ Action := ResultExit, RequeueAfter := 0 },
        { Action := ResultContinue, RequeueAfter := 0 },
        { Action := ResultContinue, RequeueAfter := 0 }]).Build "ns/a"
      (worldOf exReady)).world.trace = [Event.get "ns/a", Event.step 0] := by
  refine ⟨?_, ?_⟩
  · exact (C5_step_ordering _ "ns/a" (worldOf exReady) exReady
      ⟨rfl, fun r hr => by simp [cbSteps] at hr; rcases hr with rfl | rfl <;> rfl⟩).1
      [stepOf { Action := ResultContinue, RequeueAfter := 0 },
        stepOf { Action := ResultContinue, RequeueAfter := 0 }] []
      (stepOf { Action := ResultExit, RequeueAfter := 0 }) exReady [exReady]
      { Action := ResultExit, RequeueAfter := 0 } rfl rfl rfl rfl
  · exact (C5_step_ordering _ "ns/a" (worldOf exReady) exReady
      ⟨rfl, fun r hr => by simp [cbSteps] at hr; rcases hr with rfl | rfl <;> rfl⟩).1
      [] [stepOf { Action := ResultContinue, RequeueAfter := 0 },
        stepOf { Action := ResultContinue, RequeueAfter := 0 }]
      (stepOf { Action := ResultExit, RequeueAfter := 0 }) exReady [exReady]
      { Action := ResultExit, RequeueAfter := 0 } rfl rfl rfl rfl

theorem passSteps_of_continueSteps {σ : Type} (steps : List (StepWithResultFn σ)) :
    ∀ (obj : Object) (s : σ) (p : Object × σ),
      continueSteps steps obj s = some p → passSteps steps obj s = some p := by
  induction steps with
  | nil =>
    intro obj s p h
    simpa [continueSteps, passSteps] using h
  | cons st rest ih =>
    intro obj s p h
    simp only [continueSteps] at h
    rcases hst : st obj s with ⟨r, o1, s1⟩
    rw [hst] at h
    cases r with
    | error e => simp at h
    | ok sres =>
      simp only at h
      by_cases hc : sres = { Action := ResultContinue, RequeueAfter := 0 }
      · simp only [hc, if_true] at h
        have hns : stopsChain { Action := ResultContinue, RequeueAfter := 0 } = false := by
          decide
        simp only [passSteps, hst, hc, hns, Bool.false_eq_true, if_false]
        exact ih o1 s1 p h
      · simp [hc] at h

/-- C6: when the trigger reaches the step chain and no step fails, the outcome
is decided by the first step whose result stops the chain (the steps before it
return results that, after the delay rule, are neither Requeue nor Exit): if
its result is Requeue, by its action tag with any delay or by a nonzero delay,
the outcome is requeue=true with exactly its delay; if its action is Exit and
its delay is zero the outcome is requeue=false with zero delay. If in this
pass every step, handed the object and the store the steps before it left,
returns Continue with zero delay, in particular if no step is registered, the
outcome is requeue=false with zero delay and every step has been invoked once,
in order; this holds in particular for steps that return Continue with zero
delay whatever they are handed. In each case no error is returned. -/
theorem C6_step_chain_outcome {σ : Type} (cb : controllerBuilder σ) (key : String)
    (w : World σ) (obj : Object) (hreach : ReachesSteps cb key w obj) :
    (∀ (pre post : List (StepWithResultFn σ)) (st : StepWithResultFn σ) (obj' : Object)
        (s' : σ) (sres : StepResult),
      cb.Steps = pre ++ st :: post →
      passSteps pre obj w.store = some (obj', s') →
      (st obj' s').1 = .ok sres →
      (sres.Action = ResultRequeue ∨ sres.RequeueAfter ≠ 0 →
        (cb.Build key w).res = { Requeue := true, RequeueAfter := sres.RequeueAfter } ∧
        (cb.Build key w).err = none) ∧
      (sres.Action = ResultExit → sres.RequeueAfter = 0 →
        (cb.Build key w).res = { Requeue := false, RequeueAfter := 0 } ∧
        (cb.Build key w).err = none)) ∧
    (∀ p, continueSteps cb.Steps obj w.store = some p →
      (cb.Build key w).res = { Requeue := false, RequeueAfter := 0 } ∧
      (cb.Build key w).err = none ∧
      (cb.Build key w).world.trace =
        w.trace ++ [Event.get key] ++ stepEvents cb.Steps.length ∧
      (cb.Build key w).world.store = p.2) ∧
    ((∀ st ∈ cb.Steps, ∀ o s,
        (st o s).1 = .ok { Action := ResultContinue, RequeueAfter := 0 }) →
      (cb.Build key w).res = { Requeue := false, RequeueAfter := 0 } ∧
      (cb.Build key w).err = none) := by
  refine ⟨?_, ?_, ?_⟩
  · intro pre post st obj' s' sres hsteps hpre hst
    refine ⟨?_, ?_⟩
    · intro hreq
      have ha : (applyDelay sres).Action = ResultRequeue := by
        by_cases hz : sres.RequeueAfter = 0
        · rw [applyDelay_of_zero sres hz]
          rcases hreq with hreq | hreq
          · exact hreq
          · exact absurd hz hreq
        · exact applyDelay_of_nonzero sres hz
      have hstop : stopsChain sres = true := by simp [stopsChain, ha]
      rw [Build_stop cb key w obj pre post st obj' s' sres hreach hsteps hpre hst hstop]
      simp [ha, exit_ne_requeue.symm]
    · intro hexit hz
      have ha : (applyDelay sres).Action = ResultExit := by
        rw [applyDelay_of_zero sres hz]; exact hexit
      have hstop : stopsChain sres = true := by simp [stopsChain, ha]
      rw [Build_stop cb key w obj pre post st obj' s' sres hreach hsteps hpre hst hstop]
      simp [ha, Result.empty]
  · intro p hp
    have hpass : passSteps cb.Steps obj (afterGet w key).store = some (p.1, p.2) :=
      passSteps_of_continueSteps cb.Steps obj w.store p hp
    rw [Build_of_reaches cb key w obj hreach,
      runSteps_all_pass cb.Steps obj (afterGet w key) p.1 p.2 hpass]
    exact ⟨rfl, rfl, rfl, rfl⟩
  · intro hall
    obtain ⟨p, hp⟩ := passSteps_of_all_continue cb.Steps hall obj w.store
    rw [Build_of_reaches cb key w obj hreach,
      runSteps_all_pass cb.Steps obj (afterGet w key) p.1 p.2 hp]
    exact ⟨rfl, rfl⟩

/-- Witness of C6: Continue then Requeue with zero delay gives requeue=true
with zero delay; Continue then Exit gives requeue=false; two steps that return
Continue give requeue=false after both ran; so do two steps of which the first
returns Continue only because of the payload it is handed in this pass; no step
at all gives requeue=false. -/
theorem C6_step_chain_outcome_witness :
    ((cbSteps [{ Action := ResultContinue, RequeueAfter := 0 },
        { Action := ResultRequeue, RequeueAfter := 0 },
        { Action := ResultExit, RequeueAfter := 0 }]).Build "ns/a" (worldOf exReady)).res =
      { Requeue := true, RequeueAfter := 0 } ∧
    ((cbSteps [{ Action := ResultContinue, RequeueAfter := 0 },
        { Action := ResultExit, RequeueAfter := 0 },
        { Action := ResultRequeue, RequeueAfter := 9 }]).Build "ns/a" (worldOf exReady)).res =
      { Requeue := false, RequeueAfter := 0 } ∧
    (((cbSteps [{ Action := ResultContinue, RequeueAfter := 0 },
        { Action := ResultContinue, RequeueAfter := 0 }]).Build "ns/a" (worldOf exReady)).res =
        { Requeue := false, RequeueAfter := 0 } ∧
      ((cbSteps [{ Action := ResultContinue, RequeueAfter := 0 },
        { Action := ResultContinue, RequeueAfter := 0 }]).Build "ns/a"
          (worldOf exReady)).world.trace =
        [Event.get "ns/a", Event.step 0, Event.step 1]) ∧
    ((cbInputSteps.Build "ns/a" (worldOf exReady)).res =
        { Requeue := false, RequeueAfter := 0 } ∧
      (cbInputSteps.Build "ns/a" (worldOf exReady)).world.trace =
        [Event.get "ns/a", Event.step 0, Event.step 1] ∧
      (stepByPayload { exReady with payload := "seen" } [exReady]).1 =
        .ok { Action := ResultRequeue, RequeueAfter := 4 }) ∧
    ((cbSteps []).Build "ns/a" (worldOf exReady)).res =
      { Requeue := false, RequeueAfter := 0 } ∧
    ((cbSteps [{ Action := ResultContinue, RequeueAfter := 0 }]).Build "ns/a"
        (worldOf exReady)).res = { Requeue := false, RequeueAfter := 0 } := by
  refine ⟨?_, ?_, ?_, ?_, ?_, ?_⟩
  · exact (((C6_step_chain_outcome _ "ns/a" (worldOf exReady) exReady
      ⟨rfl, fun r hr => by simp [cbSteps] at hr; rcases hr with rfl | rfl <;> rfl⟩).1
      [stepOf { Action := ResultContinue, RequeueAfter := 0 }]
      [stepOf { Action := ResultExit, RequeueAfter := 0 }]
      (stepOf { Action := ResultRequeue, RequeueAfter := 0 }) exReady [exReady]
      { Action := ResultRequeue, RequeueAfter := 0 } rfl rfl rfl).1 (Or.inl rfl)).1
  · exact (((C6_step_chain_outcome _ "ns/a" (worldOf exReady) exReady
      ⟨rfl, fun r hr => by simp [cbSteps] at hr; rcases hr with rfl | rfl <;> rfl⟩).1
      [stepOf { Action := ResultContinue, RequeueAfter := 0 }]
      [stepOf { Action := ResultRequeue, RequeueAfter := 9 }]
      (stepOf { Action := ResultExit, RequeueAfter := 0 }) exReady [exReady]
      { Action := ResultExit, RequeueAfter := 0 } rfl rfl rfl).2 rfl rfl).1
  · have h := (C6_step_chain_outcome
      (cbSteps [{ Action := ResultContinue, RequeueAfter := 0 },
        { Action := ResultContinue, RequeueAfter := 0 }]) "ns/a" (worldOf exReady) exReady
      ⟨rfl, fun r hr => by simp [cbSteps] at hr; rcases hr with rfl | rfl <;> rfl⟩).2.1
      (exReady, [exReady]) rfl
    exact ⟨h.1, h.2.2.1⟩
  · have h := (C6_step_chain_outcome cbInputSteps "ns/a" (worldOf exReady) exReady
      ⟨rfl, fun r hr => by simp [cbInputSteps] at hr; rcases hr with rfl | rfl <;> rfl⟩).2.1
      ({ exReady with payload := "seen" }, [exReady]) rfl
    exact ⟨h.1, h.2.2.1, rfl⟩
  · exact ((C6_step_chain_outcome (cbSteps []) "ns/a" (worldOf exReady) exReady
      ⟨rfl, fun r hr => by simp [cbSteps] at hr; rcases hr with rfl | rfl <;> rfl⟩).2.1
      (exReady, [exReady]) rfl).1
  · exact ((C6_step_chain_outcome
      (cbSteps [{ Action := ResultContinue, RequeueAfter := 0 }]) "ns/a" (worldOf exReady)
      exReady
      ⟨rfl, fun r hr => by simp [cbSteps] at hr; rcases hr with rfl | rfl <;> rfl⟩).2.2
      (fun st hst o s => by simp [cbSteps] at hst; subst hst; rfl)).1

/-- C7: when the trigger reaches the step chain, the steps before `st` do not
stop the chain, and `st` returns a result whose delay is not zero, then,
whatever the action tag of that result, the chain stops at `st` (the step
events of the pass end with the one of `st`) and the outcome is requeue=true
with exactly that delay and no error. -/
theorem C7_delay_dominance {σ : Type} (cb : controllerBuilder σ) (key : String)
    (w : World σ) (obj : Object) (pre post : List (StepWithResultFn σ))
    (st : StepWithResultFn σ) (obj' : Object) (s' : σ) (sres : StepResult)
    (hreach : ReachesSteps cb key w obj)
    (hsteps : cb.Steps = pre ++ st :: post)
    (hpre : passSteps pre obj w.store = some (obj', s'))
    (hst : (st obj' s').1 = .ok sres)
    (hdelay : sres.RequeueAfter ≠ 0) :
    (cb.Build key w).res = { Requeue := true, RequeueAfter := sres.RequeueAfter } ∧
    (cb.Build key w).err = none ∧
    (cb.Build key w).world.trace =
      w.trace ++ [Event.get key] ++ stepEvents (pre.length + 1) := by
  have ha : (applyDelay sres).Action = ResultRequeue := applyDelay_of_nonzero sres hdelay
  have hstop : stopsChain sres = true := by simp [stopsChain, ha]
  rw [Build_stop cb key w obj pre post st obj' s' sres hreach hsteps hpre hst hstop]
  simp [ha, exit_ne_requeue.symm]

/-- Witness of C7: a step returning Continue with delay 5, and a step returning
Exit with delay -3, each followed by another step. -/
theorem C7_delay_dominance_witness :
    ((cbSteps [{ Action := ResultContinue, RequeueAfter := 0 },
        { Action := ResultContinue, RequeueAfter := 5 },
        { Action := ResultExit, RequeueAfter := 0 }]).Build "ns/a" (worldOf exReady)).res =
      { Requeue := true, RequeueAfter := 5 } ∧
    ((cbSteps [{ Action := ResultExit, RequeueAfter := -3 },
        { Action := ResultContinue, RequeueAfter := 0 }]).Build "ns/a" (worldOf exReady)).res =
      { Requeue := true, RequeueAfter := -3 } := by
  refine ⟨?_, ?_⟩
  · exact (C7_delay_dominance _ "ns/a" (worldOf exReady) exReady
      [stepOf { Action := ResultContinue, RequeueAfter := 0 }]
      [stepOf { Action := ResultExit, RequeueAfter := 0 }]
      (stepOf { Action := ResultContinue, RequeueAfter := 5 }) exReady [exReady]
      { Action := ResultContinue, RequeueAfter := 5 }
      ⟨rfl, fun r hr => by simp [cbSteps] at hr; rcases hr with rfl | rfl <;> rfl⟩
      rfl rfl rfl (by decide)).1
  · exact (C7_delay_dominance _ "ns/a" (worldOf exReady) exReady
      [] [stepOf { Action := ResultContinue, RequeueAfter := 0 }]
      (stepOf { Action := ResultExit, RequeueAfter := -3 }) exReady [exReady]
      { Action := ResultExit, RequeueAfter := -3 }
      ⟨rfl, fun r hr => by simp [cbSteps] at hr; rcases hr with rfl | rfl <;> rfl⟩
      rfl rfl rfl (by decide)).1

/-- C8: when the store reports the trigger's key as not found, the pass returns
the empty outcome with no error; the only call it makes is the store get: no
cleanup, no step and no Update appears in the trace, and the store is left as
it was. -/
theorem C8_absent_object_short_circuit {σ : Type} (cb : controllerBuilder σ)
    (key : String) (w : World σ) (e : ApiError)
    (hget : cb.client.Get key w.store = .error e) (hnf : IsNotFound e = true) :
    (cb.Build key w).res = Result.empty ∧
    (cb.Build key w).err = none ∧
    (cb.Build key w).world.trace = w.trace ++ [Event.get key] ∧
    (cb.Build key w).world.store = w.store := by
  simp [controllerBuilder.Build, ApiTryGetG, ApiGetG, hget, hnf]

/-- Witness of C8: a trigger for a key the in-memory store does not hold. -/
theorem C8_absent_object_short_circuit_witness :
    ((cbTwoFinalizers memClient).Build "ns/zz" (worldOf exDeleting)).res = Result.empty ∧
    ((cbTwoFinalizers memClient).Build "ns/zz" (worldOf exDeleting)).err = none ∧
    ((cbTwoFinalizers memClient).Build "ns/zz" (worldOf exDeleting)).world.trace =
      [Event.get "ns/zz"] ∧
    ((cbTwoFinalizers memClient).Build "ns/zz" (worldOf exDeleting)).world.store =
      [exDeleting] :=
  C8_absent_object_short_circuit (cbTwoFinalizers memClient) "ns/zz" (worldOf exDeleting)
    (.notFound "ns/zz") rfl rfl

/-- C9: a failure `e` of the store get that is not a not-found, of the cleanup
of the first finalizer that has to run, of the Update after the first
mutation, or of the first step that does not return, is returned by the pass as
its error, unchanged and with the empty outcome, and the failed call is the
last event of the trace: nothing is executed after it. -/
theorem C9_failure_propagation {σ : Type} (cb : controllerBuilder σ) (key : String)
    (w : World σ) :
    (∀ e, cb.client.Get key w.store = .error e → IsNotFound e = false →
      (cb.Build key w).res = Result.empty ∧ (cb.Build key w).err = some e ∧
      (cb.Build key w).world.trace = w.trace ++ [Event.get key]) ∧
    (∀ (obj : Object) (pre post : List (finalizerRegistration σ))
        (r : finalizerRegistration σ) (e : ApiError),
      cb.client.Get key w.store = .ok obj →
      cb.Finalizers = pre ++ r :: post →
      (∀ fnreg ∈ pre, (fnreg.Run obj (afterGet w key)).1 = .ok false) →
      obj.deletionTimestamp ≠ none →
      r.finalizer ∈ obj.finalizers →
      (r.fn (RemoveFinalizer obj r.finalizer) w.store).1 = some e →
      (cb.Build key w).res = Result.empty ∧ (cb.Build key w).err = some e ∧
      (cb.Build key w).world.trace =
        w.trace ++ [Event.get key] ++
          [Event.cleanup r.finalizer (RemoveFinalizer obj r.finalizer)]) ∧
    (∀ (obj : Object) (pre post : List (finalizerRegistration σ))
        (r : finalizerRegistration σ) (e : ApiError),
      cb.client.Get key w.store = .ok obj →
      cb.Finalizers = pre ++ r :: post →
      (∀ fnreg ∈ pre, (fnreg.Run obj (afterGet w key)).1 = .ok false) →
      (r.Run obj (afterGet w key)).1 = .ok true →
      (cb.client.Update (r.Run obj (afterGet w key)).2.1
        (r.Run obj (afterGet w key)).2.2.store).1 = some e →
      (cb.Build key w).res = Result.empty ∧ (cb.Build key w).err = some e ∧
      (cb.Build key w).world.trace =
        (r.Run obj (afterGet w key)).2.2.trace ++
          [Event.update (r.Run obj (afterGet w key)).2.1]) ∧
    (∀ (obj : Object) (pre post : List (StepWithResultFn σ)) (st : StepWithResultFn σ)
        (obj' : Object) (s' : σ) (e : ApiError),
      ReachesSteps cb key w obj →
      cb.Steps = pre ++ st :: post →
      passSteps pre obj w.store = some (obj', s') →
      (st obj' s').1 = .error e →
      (cb.Build key w).res = Result.empty ∧ (cb.Build key w).err = some e ∧
      (cb.Build key w).world.trace =
        w.trace ++ [Event.get key] ++ stepEvents (pre.length + 1)) := by
  refine ⟨?_, ?_, ?_, ?_⟩
  · intro e hget hnf
    simp [controllerBuilder.Build, ApiTryGetG, ApiGetG, hget, hnf]
  · intro obj pre post r e hget hfin hpre hdel hin hfail
    have hd : obj.deletionTimestamp.isSome = true := by
      cases h : obj.deletionTimestamp with
      | none => exact absurd h hdel
      | some t => rfl
    have hfail' : (r.fn (RemoveFinalizer obj r.finalizer) (afterGet w key).store).1 = some e :=
      hfail
    rw [Build_of_mutation cb key w obj pre post r hget hfin hpre,
      Run_marked_present r obj (afterGet w key) hd hin, hfail']
    exact ⟨rfl, rfl, rfl⟩
  · intro obj pre post r e hget hfin hpre hmut hupd
    have h := Build_mutated cb key w obj pre post r hget hfin hpre hmut
    exact ⟨(h.2.2.2 e hupd).1, (h.2.2.2 e hupd).2, h.1⟩
  · intro obj pre post st obj' s' e hreach hsteps hpre hst
    rcases hs : st obj' s' with ⟨r, o1, s1⟩
    rw [hs] at hst
    simp only at hst
    subst hst
    rw [Build_of_reaches cb key w obj hreach, hsteps,
      runSteps_fail pre post st obj (afterGet w key) obj' o1 s' s1 e hpre hs]
    exact ⟨rfl, rfl, rfl⟩

/-- Witness of C9: an unavailable store, a failing cleanup on a deleting
object, a conflicting Update after a finalizer was added, and a failing second
step. -/
theorem C9_failure_propagation_witness :
    ((cbTwoFinalizers downClient).Build "ns/a" (worldOf exReady)).err =
      some (.unavailable "ns/a") ∧
    ((cbTwoFinalizers downClient).Build "ns/a" (worldOf exReady)).world.trace =
      [Event.get "ns/a"] ∧
    (cbFailCleanup.Build "ns/a" (worldOf exDeleting)).err = some (.invalid "cleanup") ∧
    (cbFailCleanup.Build "ns/a" (worldOf exDeleting)).world.trace =
      [Event.get "ns/a", Event.cleanup "a" { exDeleting with finalizers := ["x", "b"] }] ∧
    ((cbTwoFinalizers conflictClient).Build "ns/a" (worldOf exFresh)).err =
      some (.conflict "ns/a") ∧
    ((cbTwoFinalizers conflictClient).Build "ns/a" (worldOf exFresh)).world.trace =
      [Event.get "ns/a", Event.update { exFresh with finalizers := ["a"] }] ∧
    (cbFailStep.Build "ns/a" (worldOf exReady)).err = some (.unavailable "step") ∧
    (cbFailStep.Build "ns/a" (worldOf exReady)).world.trace =
      [Event.get "ns/a", Event.step 0, Event.step 1] := by
  have h1 := (C9_failure_propagation (cbTwoFinalizers downClient) "ns/a" (worldOf exReady)).1
    (.unavailable "ns/a") rfl rfl
  have h2 := (C9_failure_propagation cbFailCleanup "ns/a" (worldOf exDeleting)).2.1
    exDeleting [] [regB] { finalizer := "a", fn := failCleanup (.invalid "cleanup") }
    (.invalid "cleanup") rfl rfl (by simp) (by decide) (by decide) rfl
  have h3 := (C9_failure_propagation (cbTwoFinalizers conflictClient) "ns/a"
    (worldOf exFresh)).2.2.1 exFresh [] [regB] regA (.conflict "ns/a") rfl rfl (by simp) rfl rfl
  have h4 := (C9_failure_propagation cbFailStep "ns/a" (worldOf exReady)).2.2.2
    exReady [stepOf { Action := ResultContinue, RequeueAfter := 0 }]
    [stepOf { Action := ResultContinue, RequeueAfter := 0 }]
    (failStep (.unavailable "step")) exReady [exReady] (.unavailable "step")
    ⟨rfl, fun r hr => by simp [cbFailStep] at hr; rcases hr with rfl | rfl <;> rfl⟩
    rfl rfl rfl
  exact ⟨h1.2.1, h1.2.2, h2.2.1, h2.2.2, h3.2.1, h3.2.2, h4.2.1, h4.2.2⟩

/-! ## apicall: the claim -/

/-- C10: `ApiGetG` fails with the store's error whenever the store get fails,
not-found included, and returns the fetched object otherwise. `ApiTryGetG`
returns the nil object without failure exactly when the store get fails with
not-found, fails with the store's error for every other failure, and returns
the fetched object when the get succeeds. `ApiTryGet` returns found=false on
not-found (leaving the caller's object as it was), found=true with the fetched
object on success, and fails with the store's error otherwise. -/
theorem C10_try_get_mapping {σ : Type} (cl : Client σ) (key : String) (w : World σ)
    (obj0 : Object) :
    (∀ e, cl.Get key w.store = .error e → (ApiGetG cl key w).1 = .error e) ∧
    (∀ o, cl.Get key w.store = .ok o → (ApiGetG cl key w).1 = .ok o) ∧
    ((ApiTryGetG cl key w).1 = .ok none ↔
      ∃ e, cl.Get key w.store = .error e ∧ IsNotFound e = true) ∧
    (∀ e, cl.Get key w.store = .error e → IsNotFound e = false →
      (ApiTryGetG cl key w).1 = .error e) ∧
    (∀ o, cl.Get key w.store = .ok o → (ApiTryGetG cl key w).1 = .ok (some o)) ∧
    (∀ e, cl.Get key w.store = .error e → IsNotFound e = true →
      (ApiTryGet cl key obj0 w).1 = .ok (false, obj0)) ∧
    (∀ e, cl.Get key w.store = .error e → IsNotFound e = false →
      (ApiTryGet cl key obj0 w).1 = .error e) ∧
    (∀ o, cl.Get key w.store = .ok o → (ApiTryGet cl key obj0 w).1 = .ok (true, o)) := by
  refine ⟨?_, ?_, ?_, ?_, ?_, ?_, ?_, ?_⟩
  · intro e h; simp [ApiGetG, h]
  · intro o h; simp [ApiGetG, h]
  · cases h : cl.Get key w.store with
    | error e =>
      cases hn : IsNotFound e <;> simp [ApiTryGetG, ApiGetG, h, hn]
    | ok o => simp [ApiTryGetG, ApiGetG, h]
  · intro e h hn; simp [ApiTryGetG, ApiGetG, h, hn]
  · intro o h; simp [ApiTryGetG, ApiGetG, h]
  · intro e h hn; simp [ApiTryGet, h, hn]
  · intro e h hn; simp [ApiTryGet, h, hn]
  · intro o h; simp [ApiTryGet, h]

/-- Witness of C10: a missing key, a present key and an unavailable store. -/
theorem C10_try_get_mapping_witness :
    (ApiGetG memClient "ns/zz" (worldOf exReady)).1 = .error (.notFound "ns/zz") ∧
    (ApiTryGetG memClient "ns/zz" (worldOf exReady)).1 = .ok none ∧
    (ApiTryGetG memClient "ns/a" (worldOf exReady)).1 = .ok (some exReady) ∧
    (ApiTryGetG downClient "ns/a" (worldOf exReady)).1 = .error (.unavailable "ns/a") ∧
    (ApiTryGet memClient "ns/zz" exFresh (worldOf exReady)).1 = .ok (false, exFresh) ∧
    (ApiTryGet memClient "ns/a" exFresh (worldOf exReady)).1 = .ok (true, exReady) := by
  have hm := C10_try_get_mapping memClient "ns/zz" (worldOf exReady) exFresh
  have ha := C10_try_get_mapping memClient "ns/a" (worldOf exReady) exFresh
  have hd := C10_try_get_mapping downClient "ns/a" (worldOf exReady) exFresh
  exact ⟨hm.1 _ rfl, hm.2.2.1.2 ⟨.notFound "ns/zz", rfl, rfl⟩, ha.2.2.2.2.1 _ rfl,
    hd.2.2.2.1 _ rfl rfl, hm.2.2.2.2.2.1 _ rfl rfl, ha.2.2.2.2.2.2.2 _ rfl⟩


/-! ## Conditions and annotations: lemmas and claims -/

theorem presentAndEqual_iff (conditions : List Condition) (t s : String) :
    meta_IsStatusConditionPresentAndEqual conditions t s = true ↔
      ∃ c, findCondition conditions t = some c ∧ c.Status = s := by
  induction conditions with
  | nil => simp [meta_IsStatusConditionPresentAndEqual, findCondition]
  | cons c rest ih =>
    by_cases h : c.type = t
    · simp [meta_IsStatusConditionPresentAndEqual, findCondition, h]
    · simp [meta_IsStatusConditionPresentAndEqual, findCondition, h, ih]

theorem metaSet_of_absent (now : Nat) (conditions : List Condition) (nc : Condition)
    (h : findCondition conditions nc.type = none) :
    meta_SetStatusCondition now conditions nc =
      conditions ++ [if nc.LastTransitionTime = 0 then { nc with LastTransitionTime := now }
        else nc] := by
  induction conditions with
  | nil => rfl
  | cons c rest ih =>
    by_cases hc : c.type = nc.type
    · simp [findCondition, hc] at h
    · simp only [findCondition, hc, if_false] at h
      simp [meta_SetStatusCondition, hc, ih h]

theorem metaSet_of_present (now : Nat) (conditions : List Condition) (nc c : Condition)
    (h : findCondition conditions nc.type = some c) :
    findCondition (meta_SetStatusCondition now conditions nc) nc.type =
      some { type := c.type,
             Status := nc.Status,
             ObservedGeneration := nc.ObservedGeneration,
             LastTransitionTime :=
               if c.Status = nc.Status then c.LastTransitionTime
               else if nc.LastTransitionTime = 0 then now
               else nc.LastTransitionTime,
             Reason := nc.Reason,
             Message := nc.Message } ∧
    (meta_SetStatusCondition now conditions nc).length = conditions.length := by
  induction conditions with
  | nil => simp [findCondition] at h
  | cons d rest ih =>
    by_cases hd : d.type = nc.type
    · simp only [findCondition, hd, if_true, Option.some.injEq] at h
      subst h
      simp [meta_SetStatusCondition, findCondition, hd]
    · simp only [findCondition, hd, if_false] at h
      have ih' := ih h
      simp [meta_SetStatusCondition, findCondition, hd, ih'.1, ih'.2]

/-- C11: `SetStatusCondition` returns false and leaves the whole list as it is
(the transition timestamp included) when the condition of the new condition's
type has the same status; when that condition has a different status it returns
true, the stored status becomes the new one and the transition timestamp is set
(to the one given, or to the clock when none is given); when there is no
condition of the type it returns true and the new condition is appended (with
the clock as transition timestamp when none is given). It returns true if and
only if the list changed. -/
theorem C11_condition_upsert (now : Nat) (conditions : List Condition)
    (newCondition : Condition) :
    (∀ c, findCondition conditions newCondition.type = some c →
      c.Status = newCondition.Status →
      SetStatusCondition now conditions newCondition = (false, conditions)) ∧
    (∀ c, findCondition conditions newCondition.type = some c →
      c.Status ≠ newCondition.Status →
      (SetStatusCondition now conditions newCondition).1 = true ∧
      (SetStatusCondition now conditions newCondition).2.length = conditions.length ∧
      ∃ c', findCondition (SetStatusCondition now conditions newCondition).2
          newCondition.type = some c' ∧
        c'.Status = newCondition.Status ∧
        c'.LastTransitionTime =
          (if newCondition.LastTransitionTime = 0 then now
            else newCondition.LastTransitionTime)) ∧
    (findCondition conditions newCondition.type = none →
      SetStatusCondition now conditions newCondition =
        (true, conditions ++
          [if newCondition.LastTransitionTime = 0 then
              { newCondition with LastTransitionTime := now }
            else newCondition])) ∧
    ((SetStatusCondition now conditions newCondition).1 = true ↔
      (SetStatusCondition now conditions newCondition).2 ≠ conditions) := by
  have hsame : ∀ c, findCondition conditions newCondition.type = some c →
      c.Status = newCondition.Status →
      SetStatusCondition now conditions newCondition = (false, conditions) := by
    intro c hc hs
    have hp : meta_IsStatusConditionPresentAndEqual conditions newCondition.type
        newCondition.Status = true := (presentAndEqual_iff _ _ _).2 ⟨c, hc, hs⟩
    simp [SetStatusCondition, hp]
  have hdiff : ∀ c, findCondition conditions newCondition.type = some c →
      c.Status ≠ newCondition.Status →
      SetStatusCondition now conditions newCondition =
        (true, meta_SetStatusCondition now conditions newCondition) := by
    intro c hc hs
    have hp : meta_IsStatusConditionPresentAndEqual conditions newCondition.type
        newCondition.Status = false := by
      cases hb : meta_IsStatusConditionPresentAndEqual conditions newCondition.type
          newCondition.Status with
      | false => rfl
      | true =>
        obtain ⟨c', hc', hs'⟩ := (presentAndEqual_iff _ _ _).1 hb
        rw [hc] at hc'
        cases hc'
        exact absurd hs' hs
    simp [SetStatusCondition, hp]
  have habs : findCondition conditions newCondition.type = none →
      SetStatusCondition now conditions newCondition =
        (true, conditions ++
          [if newCondition.LastTransitionTime = 0 then
              { newCondition with LastTransitionTime := now }
            else newCondition]) := by
    intro hn
    have hp : meta_IsStatusConditionPresentAndEqual conditions newCondition.type
        newCondition.Status = false := by
      cases hb : meta_IsStatusConditionPresentAndEqual conditions newCondition.type
          newCondition.Status with
      | false => rfl
      | true =>
        obtain ⟨c', hc', _⟩ := (presentAndEqual_iff _ _ _).1 hb
        rw [hn] at hc'
        cases hc'
    simp [SetStatusCondition, hp, metaSet_of_absent now conditions newCondition hn]
  refine ⟨hsame, ?_, habs, ?_⟩
  · intro c hc hs
    have hp := metaSet_of_present now conditions newCondition c hc
    rw [hdiff c hc hs]
    refine ⟨rfl, hp.2, _, hp.1, rfl, ?_⟩
    simp [hs]
  · cases hf : findCondition conditions newCondition.type with
    | none =>
      rw [habs hf]
      simp
    | some c =>
      by_cases hs : c.Status = newCondition.Status
      · rw [hsame c hf hs]
        simp
      · have hp := metaSet_of_present now conditions newCondition c hf
        rw [hdiff c hf hs]
        simp only [true_iff]
        intro heq
        rw [heq, hf] at hp
        have := hp.1
        simp only [Option.some.injEq] at this
        have hst := congrArg Condition.Status this
        exact hs hst

/-- Witness of C11: the same status again, a changed status, and a condition of
a new type, each set on a list holding one `Ready` condition. -/
theorem C11_condition_upsert_witness :
    SetStatusCondition 99 exConditions
        { type := "Ready", Status := "True", ObservedGeneration := 1, LastTransitionTime := 0,
          Reason := "Started", Message := "up" } = (false, exConditions) ∧
    (SetStatusCondition 99 exConditions
        { type := "Ready", Status := "False", ObservedGeneration := 1, LastTransitionTime := 0,
          Reason := "Started", Message := "up" }).1 = true ∧
    SetStatusCondition 99 exConditions
        { type := "Synced", Status := "True", ObservedGeneration := 1, LastTransitionTime := 0,
          Reason := "Done", Message := "" } =
      (true, exConditions ++
        [{ type := "Synced", Status := "True", ObservedGeneration := 1,
           LastTransitionTime := 99, Reason := "Done", Message := "" }]) := by
  refine ⟨?_, ?_, ?_⟩
  · exact (C11_condition_upsert 99 exConditions _).1 _ rfl rfl
  · exact ((C11_condition_upsert 99 exConditions
      { type := "Ready", Status := "False", ObservedGeneration := 1, LastTransitionTime := 0,
        Reason := "Started", Message := "up" }).2.1 _ rfl (by decide)).1
  · exact (C11_condition_upsert 99 exConditions _).2.2.1 rfl

/-- C12 (the code departs from the claim and from its own doc comment): a
condition of the type exists with the same status but another reason, message
and observed generation. `SetStatusCondition` returns false and leaves the
list as it is, so the reason, message and observed generation of the stored
condition are not those of the new condition. -/
theorem C12_same_status_keeps_other_fields :
    SetStatusCondition 99 exConditions
        { type := "Ready", Status := "True", ObservedGeneration := 2, LastTransitionTime := 0,
          Reason := "Restarted", Message := "again" } = (false, exConditions) ∧
    (findCondition (SetStatusCondition 99 exConditions
        { type := "Ready", Status := "True", ObservedGeneration := 2, LastTransitionTime := 0,
          Reason := "Restarted", Message := "again" }).2 "Ready").map
        (fun c => (c.Reason, c.Message, c.ObservedGeneration)) = some ("Started", "up", 1) ∧
    (findCondition (meta_SetStatusCondition 99 exConditions
        { type := "Ready", Status := "True", ObservedGeneration := 2, LastTransitionTime := 0,
          Reason := "Restarted", Message := "again" }) "Ready").map
        (fun c => (c.Reason, c.Message, c.ObservedGeneration)) =
      some ("Restarted", "again", 2) := by
  refine ⟨rfl, rfl, rfl⟩

theorem rangeAnnotations_assign_same (m : List (String × String)) (name value : String) :
    rangeAnnotations (mapAssign m name value) name = value := by
  induction m with
  | nil => simp [mapAssign, rangeAnnotations]
  | cons e rest ih =>
    obtain ⟨k, v⟩ := e
    by_cases hk : k = name
    · simpa [mapAssign, hk] using ih
    · have hk' : ¬ name = k := fun h => hk h.symm
      simp only [mapAssign] at ih
      simp [mapAssign, hk, rangeAnnotations, hk', ih]

theorem rangeAnnotations_assign_other (m : List (String × String)) (name value other : String)
    (h : other ≠ name) :
    rangeAnnotations (mapAssign m name value) other = rangeAnnotations m other := by
  induction m with
  | nil => simp [mapAssign, rangeAnnotations, h]
  | cons e rest ih =>
    obtain ⟨k, v⟩ := e
    simp only [mapAssign] at ih
    by_cases hk : k = name
    · have ho : ¬ other = k := by rw [hk]; exact h
      simpa [mapAssign, hk, rangeAnnotations, ho, h] using ih
    · by_cases ho : other = k
      · simp [mapAssign, hk, rangeAnnotations, ho]
      · simp [mapAssign, hk, rangeAnnotations, ho, ih]

theorem rangeAnnotations_of_not_mem (m : List (String × String)) (name : String)
    (h : name ∉ m.map Prod.fst) : rangeAnnotations m name = "" := by
  induction m with
  | nil => rfl
  | cons e rest ih =>
    obtain ⟨k, v⟩ := e
    simp only [List.map_cons, List.mem_cons, not_or] at h
    simp [rangeAnnotations, h.1, ih h.2]

/-- C13: after `SetAnnotation(metadata, name, value)`, also on metadata whose
annotation map is nil, `GetAnnotation` of `name` returns `value` and
`GetAnnotation` of every other name returns what it returned before; and
`GetAnnotation` of a name that is not a key of the annotation map (or when the
map is nil) returns the empty string. -/
theorem C13_annotation_get_after_set (metadata : ObjectMeta) (name value : String) :
    GetAnnotation ( SetAnnotation metadata name value) name = value ∧
    (∀ other, other ≠ name →
      GetAnnotation ( SetAnnotation metadata name value) other = GetAnnotation metadata other) ∧
    (∀ n, (∀ m, metadata.Annotations = some m → n ∉ m.map Prod.fst) →
      GetAnnotation metadata n = "") := by
  refine ⟨?_, ?_, ?_⟩
  · simp [ GetAnnotation, SetAnnotation, rangeAnnotations_assign_same]
  · intro other h
    cases hm : metadata.Annotations with
    | none =>
      simp only [ GetAnnotation, SetAnnotation, hm]
      rw [rangeAnnotations_assign_other _ _ _ _ h]
      rfl
    | some m =>
      simp [ GetAnnotation, SetAnnotation, hm, rangeAnnotations_assign_other _ _ _ _ h]
  · intro n h
    cases hm : metadata.Annotations with
    | none => simp [ GetAnnotation, hm]
    | some m => simp [ GetAnnotation, hm, rangeAnnotations_of_not_mem m n (h m hm)]

/-- Witness of C13: an annotation set on metadata with a nil map and on
metadata that already holds two annotations. -/
theorem C13_annotation_get_after_set_witness :
    GetAnnotation ( SetAnnotation { Annotations := none } "owner" "me") "owner" = "me" ∧
    GetAnnotation ( SetAnnotation { Annotations := some [("owner", "you"), ("zone", "z1")] }
      "owner" "me") "zone" = "z1" ∧
    GetAnnotation { Annotations := some [("owner", "you"), ("zone", "z1")] } "other" = "" := by
  refine ⟨?_, ?_, ?_⟩
  · exact (C13_annotation_get_after_set { Annotations := none } "owner" "me").1
  · exact (C13_annotation_get_after_set
      { Annotations := some [("owner", "you"), ("zone", "z1")] } "owner" "me").2.1 "zone"
      (by decide)
  · exact (C13_annotation_get_after_set
      { Annotations := some [("owner", "you"), ("zone", "z1")] } "owner" "me").2.2 "other"
      (fun m hm => by cases hm; decide)

/-! ## Order of cleanup and removal, progress of a deletion -/

/-- C14 (counterexample): on the deleting object with tokens `x`, `a`, `b`, the
cleanup registered for `a` is handed an object whose finalizer set is `x`, `b`:
the cleanup that records what it sees reports the token as absent, in `Run` and
in `ProcessFinalizer`. -/
theorem C14_counterexample_cleanup_sees_no_token :
    (regA.Run exDeleting (worldOf exDeleting)).2.2.trace =
      [Event.cleanup "a" { exDeleting with finalizers := ["x", "b"] }] ∧
    (finalizerRegistration.Run { finalizer := "a", fn := probeCleanup } exDeleting
      (worldOf exDeleting)).2.1.payload = "absent" ∧
    (ProcessFinalizer exDeleting "a" probeCleanup (worldOf exDeleting)).2.1.payload =
      "absent" := by
  refine ⟨rfl, rfl, rfl⟩

/-- C14 (amended): on an object with a deletion marker whose finalizer set
contains the token, `finalizerRegistration.Run` and `ProcessFinalizer` remove
the token from the object first and execute the cleanup afterwards: the one
cleanup call is made on the object with the token dropped, which no longer
contains the token and is otherwise the given object, and the object and store
left are the ones the cleanup leaves. -/
theorem C14_removal_before_cleanup {σ : Type} (fnreg : finalizerRegistration σ)
    (obj : Object) (w : World σ) (hdel : obj.deletionTimestamp ≠ none)
    (hin : fnreg.finalizer ∈ obj.finalizers) :
    (fnreg.Run obj w).2.2.trace =
      w.trace ++ [Event.cleanup fnreg.finalizer (RemoveFinalizer obj fnreg.finalizer)] ∧
    (fnreg.Run obj w).2.1 = (fnreg.fn (RemoveFinalizer obj fnreg.finalizer) w.store).2.1 ∧
    (fnreg.Run obj w).2.2.store =
      (fnreg.fn (RemoveFinalizer obj fnreg.finalizer) w.store).2.2 ∧
    (ProcessFinalizer obj fnreg.finalizer fnreg.fn w).2.2.trace =
      w.trace ++ [Event.cleanup fnreg.finalizer (RemoveFinalizer obj fnreg.finalizer)] ∧
    (ProcessFinalizer obj fnreg.finalizer fnreg.fn w).2.1 =
      (fnreg.fn (RemoveFinalizer obj fnreg.finalizer) w.store).2.1 ∧
    fnreg.finalizer ∉ (RemoveFinalizer obj fnreg.finalizer).finalizers ∧
    (RemoveFinalizer obj fnreg.finalizer).finalizers =
      obj.finalizers.filter (fun t => t != fnreg.finalizer) ∧
    (RemoveFinalizer obj fnreg.finalizer).key = obj.key ∧
    (RemoveFinalizer obj fnreg.finalizer).deletionTimestamp = obj.deletionTimestamp ∧
    (RemoveFinalizer obj fnreg.finalizer).payload = obj.payload := by
  have hd : obj.deletionTimestamp.isSome = true := by
    cases h : obj.deletionTimestamp with
    | none => exact absurd h hdel
    | some t => rfl
  have hc : ContainsFinalizer obj fnreg.finalizer = true := (contains_iff_mem _ _).2 hin
  have hp : ProcessFinalizer obj fnreg.finalizer fnreg.fn w =
      ((true, (fnreg.fn (RemoveFinalizer obj fnreg.finalizer) w.store).1),
        (fnreg.fn (RemoveFinalizer obj fnreg.finalizer) w.store).2.1,
        { store := (fnreg.fn (RemoveFinalizer obj fnreg.finalizer) w.store).2.2,
          trace := w.trace ++
            [Event.cleanup fnreg.finalizer (RemoveFinalizer obj fnreg.finalizer)] }) := by
    unfold ProcessFinalizer
    simp [hd, hc]
  rw [Run_marked_present fnreg obj w hd hin, hp]
  refine ⟨rfl, rfl, rfl, rfl, rfl, ?_, rfl, rfl, rfl, rfl⟩
  simp [RemoveFinalizer]

/-- Witness of C14: the registration of `a` on the deleting object with tokens
`x`, `a`, `b`. -/
theorem C14_removal_before_cleanup_witness :
    (regA.Run exDeleting (worldOf exDeleting)).2.2.trace =
      [Event.cleanup "a" (RemoveFinalizer exDeleting "a")] ∧
    "a" ∉ (RemoveFinalizer exDeleting "a").finalizers := by
  have h := C14_removal_before_cleanup regA exDeleting (worldOf exDeleting)
    (by decide) (by decide)
  exact ⟨h.1, h.2.2.2.2.2.1⟩

theorem cleanupCount_append (t : String) (a b : List Event) :
    cleanupCount t (a ++ b) = cleanupCount t a + cleanupCount t b := by
  simp [cleanupCount, List.countP_append]

theorem Build_exBoth (tr : List Event) :
    ((cbTwoFinalizers memClient).Build "ns/a" { store := [exBoth], trace := tr }).world =
      { store := [{ exBoth with finalizers := ["b"] }],
        trace := tr ++ [Event.get "ns/a"] ++
          [Event.cleanup "a" { exBoth with finalizers := ["b"] }] ++
          [Event.update { exBoth with finalizers := ["b"] }] } := rfl

theorem Build_exBoth_second (tr : List Event) :
    ((cbTwoFinalizers memClient).Build "ns/a"
        { store := [{ exBoth with finalizers := ["b"] }], trace := tr }).world =
      { store := [{ exBoth with finalizers := ["b", "a"] }],
        trace := tr ++ [Event.get "ns/a"] ++
          [Event.update { exBoth with finalizers := ["b", "a"] }] } := rfl

theorem Build_exBoth_third (tr : List Event) :
    ((cbTwoFinalizers memClient).Build "ns/a"
        { store := [{ exBoth with finalizers := ["b", "a"] }], trace := tr }).world =
      { store := [{ exBoth with finalizers := ["b"] }],
        trace := tr ++ [Event.get "ns/a"] ++
          [Event.cleanup "a" { exBoth with finalizers := ["b"] }] ++
          [Event.update { exBoth with finalizers := ["b"] }] } := rfl

theorem runPasses_exBoth_cycle (n : Nat) :
    ∀ w : World MemStore,
      (w.store = [exBoth] ∨ w.store = [{ exBoth with finalizers := ["b"] }] ∨
        w.store = [{ exBoth with finalizers := ["b", "a"] }]) →
      cleanupCount "b" w.trace = 0 →
      cleanupCount "b" (runPasses (cbTwoFinalizers memClient) "ns/a" n w).trace = 0 ∧
      ∀ o ∈ (runPasses (cbTwoFinalizers memClient) "ns/a" n w).store,
        "b" ∈ o.finalizers := by
  induction n with
  | zero =>
    intro w hs hc
    refine ⟨hc, ?_⟩
    rcases hs with hs | hs | hs <;> simp [runPasses, hs, exBoth]
  | succ n ih =>
    intro w hs hc
    obtain ⟨st, tr⟩ := w
    simp only at hs hc
    rcases hs with hs | hs | hs
    · subst hs
      simp only [runPasses, Build_exBoth]
      exact ih _ (Or.inr (Or.inl rfl)) (by simp [cleanupCount_append, hc]; rfl)
    · subst hs
      simp only [runPasses, Build_exBoth_second]
      exact ih _ (Or.inr (Or.inr rfl)) (by simp [cleanupCount_append, hc]; rfl)
    · subst hs
      simp only [runPasses, Build_exBoth_third]
      exact ih _ (Or.inr (Or.inl rfl)) (by simp [cleanupCount_append, hc]; rfl)

/-- C15 (the code departs from the claim): finalizers `a` and `b`, a deleting
object that carries both tokens, cleanups that do not fail and the in-memory
store, whose Update succeeds and whose get loads what was persisted. The first
pass runs the cleanup of `a` and removes `a`. The second pass does not evaluate
`b`: the registration of `a` puts `a` back, the object is persisted with `b`
and `a`, and no cleanup runs. A third pass runs the cleanup of `a` again. After
any number of passes the cleanup of `b` has never been invoked and `b` is
still in the stored finalizer set. -/
theorem C15_second_finalizer_never_runs :
    (runPasses (cbTwoFinalizers memClient) "ns/a" 1 (worldOf exBoth)).store =
      [{ exBoth with finalizers := ["b"] }] ∧
    (runPasses (cbTwoFinalizers memClient) "ns/a" 2 (worldOf exBoth)).store =
      [{ exBoth with finalizers := ["b", "a"] }] ∧
    (runPasses (cbTwoFinalizers memClient) "ns/a" 2 (worldOf exBoth)).trace =
      [Event.get "ns/a", Event.cleanup "a" { exBoth with finalizers := ["b"] },
        Event.update { exBoth with finalizers := ["b"] },
        Event.get "ns/a", Event.update { exBoth with finalizers := ["b", "a"] }] ∧
    cleanupCount "a" (runPasses (cbTwoFinalizers memClient) "ns/a" 3 (worldOf exBoth)).trace
      = 2 ∧
    (∀ n, cleanupCount "b"
        (runPasses (cbTwoFinalizers memClient) "ns/a" n (worldOf exBoth)).trace = 0 ∧
      ∀ o ∈ (runPasses (cbTwoFinalizers memClient) "ns/a" n (worldOf exBoth)).store,
        "b" ∈ o.finalizers) := by
  refine ⟨rfl, rfl, rfl, rfl, ?_⟩
  intro n
  exact runPasses_exBoth_cycle n (worldOf exBoth) (Or.inl rfl) rfl

/-! ## What the steps can rely on -/

theorem Run_not_mutated_iff {σ : Type} (fnreg : finalizerRegistration σ) (obj : Object)
    (w : World σ) :
    (fnreg.Run obj w).1 = .ok false ↔
      (obj.deletionTimestamp = none ∧ fnreg.finalizer ∈ obj.finalizers) := by
  constructor
  · intro h
    by_cases hin : fnreg.finalizer ∈ obj.finalizers
    · cases hd : obj.deletionTimestamp with
      | none => exact ⟨rfl, hin⟩
      | some t =>
        have hdel : obj.deletionTimestamp.isSome = true := by simp [hd]
        rw [Run_marked_present fnreg obj w hdel hin] at h
        simp only at h
        split at h <;> simp at h
    · rw [Run_absent fnreg obj w hin] at h
      simp at h
  · intro h
    rw [Run_alive_present fnreg obj w h.1 h.2]

theorem finalizers_split {σ : Type} (l : List (finalizerRegistration σ)) (obj : Object)
    (w : World σ) :
    (∀ fnreg ∈ l, (fnreg.Run obj w).1 = .ok false) ∨
    ∃ pre r post, l = pre ++ r :: post ∧
      (∀ fnreg ∈ pre, (fnreg.Run obj w).1 = .ok false) ∧ (r.Run obj w).1 ≠ .ok false := by
  induction l with
  | nil => left; intro r hr; cases hr
  | cons a rest ih =>
    by_cases ha : (a.Run obj w).1 = .ok false
    · rcases ih with h | ⟨pre, r, post, hl, hpre, hr⟩
      · left
        intro r hr
        rcases List.mem_cons.1 hr with rfl | hr
        · exact ha
        · exact h r hr
      · right
        refine ⟨a :: pre, r, post, by simp [hl], ?_, hr⟩
        intro x hx
        rcases List.mem_cons.1 hx with rfl | hx
        · exact ha
        · exact hpre x hx
    · right
      exact ⟨[], a, rest, rfl, by simp, ha⟩

theorem runSteps_trace {σ : Type} (steps : List (StepWithResultFn σ)) :
    ∀ (i : Nat) (obj : Object) (w : World σ),
      ∃ n, (steps ≠ [] → 1 ≤ n) ∧
        (runSteps steps i obj w).2.2.trace = w.trace ++ (List.range' i n).map Event.step := by
  induction steps with
  | nil =>
    intro i obj w
    exact ⟨0, by simp, by simp [runSteps]⟩
  | cons st rest ih =>
    intro i obj w
    rcases hst : st obj w.store with ⟨r, o1, s1⟩
    cases r with
    | error e =>
      refine ⟨1, by simp, ?_⟩
      simp [runSteps, hst]
    | ok sres =>
      obtain ⟨n, _, hn⟩ := ih (i + 1) o1 { store := s1, trace := w.trace ++ [Event.step i] }
      have hcont : (runSteps rest (i + 1) o1
          { store := s1, trace := w.trace ++ [Event.step i] }).2.2.trace =
          w.trace ++ (List.range' i (n + 1)).map Event.step := by
        rw [hn]
        simp [List.range']
      simp only [runSteps, hst]
      by_cases h1 : (applyDelay sres).Action = ResultContinue
      · simp only [h1, if_true]
        exact ⟨n + 1, by simp, hcont⟩
      · simp only [h1, if_false]
        by_cases h2 : (applyDelay sres).Action = ResultExit
        · simp only [h2, if_true]
          exact ⟨1, by simp, by simp⟩
        · simp only [h2, if_false]
          by_cases h3 : (applyDelay sres).Action = ResultRequeue
          · simp only [h3, if_true]
            exact ⟨1, by simp, by simp⟩
          · simp only [h3, if_false]
            exact ⟨n + 1, by simp, hcont⟩

theorem Build_reaches_world {σ : Type} (cb : controllerBuilder σ) (key : String)
    (w : World σ) (obj : Object) (h : ReachesSteps cb key w obj) :
    (cb.Build key w).world = (runSteps cb.Steps 0 obj (afterGet w key)).2.2 := by
  rw [Build_of_reaches cb key w obj h]
  rcases hr : runSteps cb.Steps 0 obj (afterGet w key) with ⟨r, o, w3⟩
  cases r with
  | error e => rfl
  | ok x => cases x <;> rfl

theorem passEvents_cases {σ : Type} (cb : controllerBuilder σ) (key : String)
    (w : World σ) :
    (∃ obj n, ReachesSteps cb key w obj ∧
      passEvents cb key w = Event.get key :: (List.range' 0 n).map Event.step) ∨
    (∀ i, Event.step i ∉ passEvents cb key w) := by
  cases hget : cb.client.Get key w.store with
  | error e =>
    right
    intro i
    cases hn : IsNotFound e <;>
      simp [passEvents, controllerBuilder.Build, ApiTryGetG, ApiGetG, hget, hn]
  | ok obj =>
    rcases finalizers_split cb.Finalizers obj (afterGet w key) with hall | ⟨pre, r, post, hl, hpre, hr⟩
    · left
      obtain ⟨n, _, hn⟩ := runSteps_trace cb.Steps 0 obj (afterGet w key)
      refine ⟨obj, n, ⟨hget, hall⟩, ?_⟩
      rw [passEvents, Build_reaches_world cb key w obj ⟨hget, hall⟩, hn]
      simp [afterGet]
    · right
      intro i
      have hb := Build_of_mutation cb key w obj pre post r hget hl hpre
      have htr := Run_trace_cases r obj (afterGet w key)
      rcases hrun : r.Run obj (afterGet w key) with ⟨res, o1, w1⟩
      rw [hrun] at hb hr htr
      simp only at hr htr
      cases res with
      | error e =>
        simp only at hb
        rcases htr with htr | htr <;>
          simp [passEvents, hb, htr, afterGet]
      | ok b =>
        cases b with
        | false => exact absurd rfl hr
        | true =>
          simp only at hb
          rcases hu : cb.client.Update o1 w1.store with ⟨err, s2⟩
          rw [hu] at hb
          cases err <;> rcases htr with htr | htr <;>
            simp [passEvents, hb, htr, afterGet]

/-- C16: `finalizerRegistration.Run` reports "not mutated" if and only if the
object has no deletion marker and already contains the token. Consequently,
with at least one finalizer registered, whenever a pass invokes a step, the
store get yielded an object that has no deletion marker and contains every
registered token, the finalizer loop left the object and the world as they
were, and the pass issues no Update and invokes no cleanup. -/
theorem C16_steps_see_settled_object {σ : Type} (cb : controllerBuilder σ) (key : String)
    (w : World σ) :
    (∀ (fnreg : finalizerRegistration σ) (obj : Object) (w' : World σ),
      (fnreg.Run obj w').1 = .ok false ↔
        (obj.deletionTimestamp = none ∧ fnreg.finalizer ∈ obj.finalizers)) ∧
    (cb.Finalizers ≠ [] → ∀ i, Event.step i ∈ passEvents cb key w →
      ∃ obj, cb.client.Get key w.store = .ok obj ∧
        obj.deletionTimestamp = none ∧
        (∀ fnreg ∈ cb.Finalizers, fnreg.finalizer ∈ obj.finalizers) ∧
        runFinalizers cb.client cb.Finalizers obj (afterGet w key) =
          (.ok none, obj, afterGet w key) ∧
        (∀ o, Event.update o ∉ passEvents cb key w) ∧
        (∀ t o, Event.cleanup t o ∉ passEvents cb key w)) := by
  refine ⟨Run_not_mutated_iff, ?_⟩
  intro hne i hi
  rcases passEvents_cases cb key w with ⟨obj, n, hreach, hev⟩ | hno
  · refine ⟨obj, hreach.1, ?_, ?_, runFinalizers_pass cb.client cb.Finalizers obj _ hreach.2,
      ?_, ?_⟩
    · cases hf : cb.Finalizers with
      | nil => exact absurd hf hne
      | cons a rest =>
        have ha := hreach.2 a (by rw [hf]; exact List.mem_cons_self _ _)
        exact ((Run_not_mutated_iff a obj _).1 ha).1
    · intro fnreg hmem
      exact ((Run_not_mutated_iff fnreg obj _).1 (hreach.2 fnreg hmem)).2
    · intro o
      simp [hev]
    · intro t o
      simp [hev]
  · exact absurd hi (hno i)

/-- Witness of C16: the ready object with the finalizers `a` and `b` and two
steps: step 0 is invoked, and the object loaded has no deletion marker and
carries both tokens. -/
theorem C16_steps_see_settled_object_witness :
    ∃ obj, memClient.Get "ns/a" [exReady] = .ok obj ∧ obj.deletionTimestamp = none ∧
      "a" ∈ obj.finalizers ∧ "b" ∈ obj.finalizers := by
  obtain ⟨obj, hget, hd, htok, _⟩ :=
    (C16_steps_see_settled_object
      (cbSteps [{ Action := ResultContinue, RequeueAfter := 0 },
        { Action := ResultExit, RequeueAfter := 0 }]) "ns/a" (worldOf exReady)).2
      (by simp [cbSteps]) 0 (by decide)
  exact ⟨obj, hget, hd, htok regA (by simp [cbSteps]), htok regB (by simp [cbSteps])⟩

/-! ## Unknown action tags, failures and the two finalizer managers -/

theorem passSteps_append_single {σ : Type} (pre : List (StepWithResultFn σ))
    (st : StepWithResultFn σ) (sres : StepResult) (o1 : Object) (s1 : σ) :
    ∀ (obj : Object) (s : σ) (obj' : Object) (s' : σ),
      passSteps pre obj s = some (obj', s') →
      st obj' s' = (.ok sres, o1, s1) →
      stopsChain sres = false →
      passSteps (pre ++ [st]) obj s = some (o1, s1) := by
  induction pre with
  | nil =>
    intro obj s obj' s' h hst hns
    simp [passSteps] at h
    obtain ⟨rfl, rfl⟩ := h
    simp [passSteps, hst, hns]
  | cons a pre ih =>
    intro obj s obj' s' h hst hns
    simp only [passSteps] at h
    rcases ha : a obj s with ⟨r, oa, sa⟩
    rw [ha] at h
    cases r with
    | error e => simp at h
    | ok ra =>
      simp only at h
      by_cases hstop : stopsChain ra = true
      · simp [hstop] at h
      · simp only [hstop, Bool.false_eq_true, if_false] at h
        simp only [List.cons_append, passSteps, ha, hstop, Bool.false_eq_true, if_false]
        exact ih oa sa obj' s' h hst hns

theorem stopsChain_of_unknown (sres : StepResult) (hz : sres.RequeueAfter = 0)
    (hr : sres.Action ≠ ResultRequeue) (he : sres.Action ≠ ResultExit) :
    stopsChain sres = false := by
  simp [stopsChain, applyDelay_of_zero sres hz, hr, he]

/-- C17: when the trigger reaches the step chain, the steps before `st` do not
stop the chain, and `st` returns a result with zero delay whose action tag is
none of Continue, Requeue and Exit, the pass goes on exactly as if `st` had
returned Continue: its outcome, error, store and trace are those of the same
builder with `st` replaced by the step that tags the result with Continue. If
`st` is the last step, the outcome is requeue=false with zero delay and no
error; if a step follows, that step is invoked. -/
theorem C17_unknown_action_continues {σ : Type} (cb : controllerBuilder σ) (key : String)
    (w : World σ) (obj : Object) (pre post : List (StepWithResultFn σ))
    (st : StepWithResultFn σ) (obj' : Object) (s' : σ) (sres : StepResult)
    (hreach : ReachesSteps cb key w obj)
    (hsteps : cb.Steps = pre ++ st :: post)
    (hpre : passSteps pre obj w.store = some (obj', s'))
    (hst : (st obj' s').1 = .ok sres)
    (hz : sres.RequeueAfter = 0)
    (_hc : sres.Action ≠ ResultContinue)
    (hr : sres.Action ≠ ResultRequeue)
    (he : sres.Action ≠ ResultExit) :
    cb.Build key w =
      controllerBuilder.Build
        { client := cb.client, Finalizers := cb.Finalizers,
          Steps := pre ++ asContinue st :: post } key w ∧
    (post = [] →
      (cb.Build key w).res = { Requeue := false, RequeueAfter := 0 } ∧
      (cb.Build key w).err = none) ∧
    (post ≠ [] → Event.step (pre.length + 1) ∈ (cb.Build key w).world.trace) := by
  rcases hs : st obj' s' with ⟨r, o1, s1⟩
  rw [hs] at hst
  simp only at hst
  subst hst
  have hns : stopsChain sres = false := stopsChain_of_unknown sres hz hr he
  have hp1 : passSteps (pre ++ [st]) obj (afterGet w key).store = some (o1, s1) :=
    passSteps_append_single pre st sres o1 s1 obj w.store obj' s' hpre hs hns
  have hs2 : asContinue st obj' s' =
      (.ok { Action := ResultContinue, RequeueAfter := sres.RequeueAfter }, o1, s1) := by
    simp [asContinue, hs]
  have hns2 : stopsChain { Action := ResultContinue, RequeueAfter := sres.RequeueAfter }
      = false := by
    rw [hz]; decide
  have hp2 : passSteps (pre ++ [asContinue st]) obj (afterGet w key).store = some (o1, s1) :=
    passSteps_append_single pre (asContinue st) _ o1 s1 obj w.store obj' s' hpre hs2 hns2
  have hsplit : cb.Steps = (pre ++ [st]) ++ post := by simp [hsteps]
  have hrun := runSteps_append_pass (pre ++ [st]) post 0 obj (afterGet w key).store
    (afterGet w key).trace o1 s1 hp1
  have hrun2 := runSteps_append_pass (pre ++ [asContinue st]) post 0 obj
    (afterGet w key).store (afterGet w key).trace o1 s1 hp2
  have hw : ({ store := (afterGet w key).store, trace := (afterGet w key).trace } : World σ)
      = afterGet w key := rfl
  rw [hw] at hrun hrun2
  have hlen : (pre ++ [asContinue st]).length = (pre ++ [st]).length := by simp
  rw [hlen] at hrun2
  refine ⟨?_, ?_, ?_⟩
  · have hreach2 : ReachesSteps
        { client := cb.client, Finalizers := cb.Finalizers,
          Steps := pre ++ asContinue st :: post } key w obj := hreach
    rw [Build_of_reaches cb key w obj hreach, Build_of_reaches _ key w obj hreach2, hsplit, hrun]
    have hsplit2 : pre ++ asContinue st :: post = (pre ++ [asContinue st]) ++ post := by simp
    simp only [hsplit2]
    rw [hrun2]
  · intro hpost
    subst hpost
    have hall : passSteps cb.Steps obj (afterGet w key).store = some (o1, s1) := by
      rw [hsteps]; exact hp1
    rw [Build_of_reaches cb key w obj hreach,
      runSteps_all_pass cb.Steps obj (afterGet w key) o1 s1 hall]
    exact ⟨rfl, rfl⟩
  · intro hpost
    rw [Build_reaches_world cb key w obj hreach, hsplit, hrun]
    obtain ⟨n, hn1, hn⟩ := runSteps_trace post (0 + (pre ++ [st]).length) o1
      { store := s1,
        trace := (afterGet w key).trace ++
          List.map Event.step (List.range' 0 (pre ++ [st]).length) }
    rw [hn]
    have h1 := hn1 hpost
    obtain ⟨m, rfl⟩ : ∃ m, n = m + 1 := ⟨n - 1, by omega⟩
    simp [List.range']

/-- Witness of C17: the zero value `StepResult` as second step, once as the last
step and once followed by another step. -/
theorem C17_unknown_action_continues_witness :
    ((cbSteps [{ Action := ResultContinue, RequeueAfter := 0 },
        { Action := "", RequeueAfter := 0 }]).Build "ns/a" (worldOf exReady)).res =
      { Requeue := false, RequeueAfter := 0 } ∧
    Event.step 2 ∈
      ((cbSteps [{ Action := ResultContinue, RequeueAfter := 0 },
        { Action := "", RequeueAfter := 0 },
        { Action := ResultExit, RequeueAfter := 0 }]).Build "ns/a"
        (worldOf exReady)).world.trace := by
  refine ⟨?_, ?_⟩
  · exact ((C17_unknown_action_continues _ "ns/a" (worldOf exReady) exReady
      [stepOf { Action := ResultContinue, RequeueAfter := 0 }] []
      (stepOf { Action := "", RequeueAfter := 0 }) exReady [exReady]
      { Action := "", RequeueAfter := 0 }
      ⟨rfl, fun r hr => by simp [cbSteps] at hr; rcases hr with rfl | rfl <;> rfl⟩
      rfl rfl rfl rfl (by decide) (by decide) (by decide)).2.1 rfl).1
  · exact (C17_unknown_action_continues _ "ns/a" (worldOf exReady) exReady
      [stepOf { Action := ResultContinue, RequeueAfter := 0 }]
      [stepOf { Action := ResultExit, RequeueAfter := 0 }]
      (stepOf { Action := "", RequeueAfter := 0 }) exReady [exReady]
      { Action := "", RequeueAfter := 0 }
      ⟨rfl, fun r hr => by simp [cbSteps] at hr; rcases hr with rfl | rfl <;> rfl⟩
      rfl rfl rfl rfl (by decide) (by decide) (by decide)).2.2 (by simp)

/-- C18: whenever the pass returns an error, the outcome returned with it is
the empty outcome, requeue=false with zero delay. -/
theorem C18_error_comes_with_empty_outcome {σ : Type} (cb : controllerBuilder σ)
    (key : String) (w : World σ) (h : (cb.Build key w).err ≠ none) :
    (cb.Build key w).res = Result.empty := by
  revert h
  cases hget : cb.client.Get key w.store with
  | error e =>
    cases hn : IsNotFound e <;>
      simp [controllerBuilder.Build, ApiTryGetG, ApiGetG, hget, hn]
  | ok obj =>
    rw [Build_of_get_ok cb key w obj hget]
    rcases runFinalizers cb.client cb.Finalizers obj (afterGet w key) with ⟨r, o, w2⟩
    cases r with
    | error e => intro _; rfl
    | ok x =>
      cases x with
      | some res => intro h; exact absurd rfl h
      | none =>
        simp only
        rcases runSteps cb.Steps 0 o w2 with ⟨r3, o3, w3⟩
        cases r3 with
        | error e => intro _; rfl
        | ok y =>
          cases y with
          | some res => intro h; exact absurd rfl h
          | none => intro _; rfl

/-- Witness of C18: a finalizer was added to the fresh object but the Update
failed with a conflict: the error is returned and requeue is not set. -/
theorem C18_error_comes_with_empty_outcome_witness :
    ((cbTwoFinalizers conflictClient).Build "ns/a" (worldOf exFresh)).err =
      some (.conflict "ns/a") ∧
    ((cbTwoFinalizers conflictClient).Build "ns/a" (worldOf exFresh)).res =
      { Requeue := false, RequeueAfter := 0 } :=
  ⟨rfl, C18_error_comes_with_empty_outcome (cbTwoFinalizers conflictClient) "ns/a"
    (worldOf exFresh) (by decide)⟩

theorem ProcessFinalizer_marked_present {σ : Type} (object : Object) (finalizer : String)
    (finalizeFn : StepFn σ) (w : World σ) (hdel : object.deletionTimestamp.isSome = true)
    (hin : finalizer ∈ object.finalizers) :
    ProcessFinalizer object finalizer finalizeFn w =
      ((true, (finalizeFn (RemoveFinalizer object finalizer) w.store).1),
        (finalizeFn (RemoveFinalizer object finalizer) w.store).2.1,
        { store := (finalizeFn (RemoveFinalizer object finalizer) w.store).2.2,
          trace := w.trace ++ [Event.cleanup finalizer (RemoveFinalizer object finalizer)] }) := by
  have hc : ContainsFinalizer object finalizer = true := (contains_iff_mem _ _).2 hin
  unfold ProcessFinalizer
  simp [hdel, hc]

theorem ProcessFinalizer_absent {σ : Type} (object : Object) (finalizer : String)
    (finalizeFn : StepFn σ) (w : World σ) (hout : finalizer ∉ object.finalizers) :
    ProcessFinalizer object finalizer finalizeFn w =
      ((true, none), AddFinalizer object finalizer, w) := by
  have hc : ContainsFinalizer object finalizer = false := by
    simpa [ContainsFinalizer] using hout
  unfold ProcessFinalizer
  simp [hc]

theorem ProcessFinalizer_alive_present {σ : Type} (object : Object) (finalizer : String)
    (finalizeFn : StepFn σ) (w : World σ) (halive : object.deletionTimestamp = none)
    (hin : finalizer ∈ object.finalizers) :
    ProcessFinalizer object finalizer finalizeFn w = ((false, none), object, w) := by
  have hc : ContainsFinalizer object finalizer = true := (contains_iff_mem _ _).2 hin
  unfold ProcessFinalizer
  simp [hc, halive]

/-- C19: `ProcessFinalizer` returns the error `e` if and only if the cleanup was
invoked (the call added the cleanup event to the trace) and returned `e`. In
that case it returns modified=true, the cleanup was handed the object with the
token already removed, and the object left is the one the cleanup leaves: the
removal is not undone, so when the cleanup does not touch the finalizer set the
token is not in it. -/
theorem C19_process_finalizer_error {σ : Type} (object : Object) (finalizer : String)
    (finalizeFn : StepFn σ) (w : World σ) (e : ApiError) :
    ((ProcessFinalizer object finalizer finalizeFn w).1.2 = some e ↔
      ((ProcessFinalizer object finalizer finalizeFn w).2.2.trace =
          w.trace ++ [Event.cleanup finalizer (RemoveFinalizer object finalizer)] ∧
        (finalizeFn (RemoveFinalizer object finalizer) w.store).1 = some e)) ∧
    ((ProcessFinalizer object finalizer finalizeFn w).1.2 = some e →
      (ProcessFinalizer object finalizer finalizeFn w).1.1 = true ∧
      finalizer ∉ (RemoveFinalizer object finalizer).finalizers ∧
      (ProcessFinalizer object finalizer finalizeFn w).2.1 =
        (finalizeFn (RemoveFinalizer object finalizer) w.store).2.1 ∧
      ((finalizeFn (RemoveFinalizer object finalizer) w.store).2.1.finalizers =
          (RemoveFinalizer object finalizer).finalizers →
        finalizer ∉ (ProcessFinalizer object finalizer finalizeFn w).2.1.finalizers)) := by
  have hrm : finalizer ∉ (RemoveFinalizer object finalizer).finalizers := by
    simp [RemoveFinalizer]
  by_cases hin : finalizer ∈ object.finalizers
  · cases hd : object.deletionTimestamp with
    | none =>
      rw [ProcessFinalizer_alive_present object finalizer finalizeFn w hd hin]
      simp
    | some t =>
      have hdel : object.deletionTimestamp.isSome = true := by simp [hd]
      rw [ProcessFinalizer_marked_present object finalizer finalizeFn w hdel hin]
      refine ⟨by simp, ?_⟩
      intro _
      refine ⟨rfl, hrm, rfl, ?_⟩
      intro hframe
      simp only [hframe]
      exact hrm
  · rw [ProcessFinalizer_absent object finalizer finalizeFn w hin]
    simp

/-- Witness of C19: a failing cleanup on the deleting object: the error is
returned with modified=true and the token is gone from the object. -/
theorem C19_process_finalizer_error_witness :
    (ProcessFinalizer exDeleting "a" (failCleanup (.invalid "cleanup"))
      (worldOf exDeleting)).1 = (true, some (.invalid "cleanup")) ∧
    (ProcessFinalizer exDeleting "a" (failCleanup (.invalid "cleanup"))
      (worldOf exDeleting)).2.1.finalizers = ["x", "b"] := by
  have h := (C19_process_finalizer_error exDeleting "a" (failCleanup (.invalid "cleanup"))
    (worldOf exDeleting) (.invalid "cleanup")).2 rfl
  exact ⟨Prod.ext h.1 rfl, by rw [h.2.2.1]; rfl⟩

/-- C20: with a cleanup that does not fail, `finalizerRegistration.Run` and
`ProcessFinalizer` agree on every object and token: the flag `Run` returns is
the flag `modified`, `ProcessFinalizer` returns no error, both leave the same
object (hence the same finalizer set), and both leave the same store and the
same trace (hence the cleanup was invoked the same number of times, which is
zero or one). -/
theorem C20_run_agrees_with_process_finalizer {σ : Type} (fnreg : finalizerRegistration σ)
    (obj : Object) (w : World σ) (hok : ∀ o s, (fnreg.fn o s).1 = none) :
    (fnreg.Run obj w).1 = .ok (ProcessFinalizer obj fnreg.finalizer fnreg.fn w).1.1 ∧
    (ProcessFinalizer obj fnreg.finalizer fnreg.fn w).1.2 = none ∧
    (fnreg.Run obj w).2.1 = (ProcessFinalizer obj fnreg.finalizer fnreg.fn w).2.1 ∧
    (fnreg.Run obj w).2.2 = (ProcessFinalizer obj fnreg.finalizer fnreg.fn w).2.2 ∧
    ((fnreg.Run obj w).2.2.trace = w.trace ∨
      (fnreg.Run obj w).2.2.trace =
        w.trace ++ [Event.cleanup fnreg.finalizer (RemoveFinalizer obj fnreg.finalizer)]) := by
  refine ⟨?_, ?_, ?_, ?_, Run_trace_cases fnreg obj w⟩ <;>
  · by_cases hin : fnreg.finalizer ∈ obj.finalizers
    · cases hd : obj.deletionTimestamp with
      | none =>
        rw [ProcessFinalizer_alive_present obj fnreg.finalizer fnreg.fn w hd hin]
        try rw [Run_alive_present fnreg obj w hd hin]
      | some t =>
        have hdel : obj.deletionTimestamp.isSome = true := by simp [hd]
        rw [ProcessFinalizer_marked_present obj fnreg.finalizer fnreg.fn w hdel hin]
        try rw [Run_marked_present fnreg obj w hdel hin]
        all_goals simp [hok]
    · rw [ProcessFinalizer_absent obj fnreg.finalizer fnreg.fn w hin]
      try rw [Run_absent fnreg obj w hin]

/-- Witness of C20: the registration of `a`, whose cleanup never fails, on the
deleting object. -/
theorem C20_run_agrees_with_process_finalizer_witness :
    (regA.Run exDeleting (worldOf exDeleting)).1 = .ok true ∧
    (ProcessFinalizer exDeleting "a" okCleanup (worldOf exDeleting)).1 = (true, none) ∧
    (regA.Run exDeleting (worldOf exDeleting)).2.1 =
      (ProcessFinalizer exDeleting "a" okCleanup (worldOf exDeleting)).2.1 := by
  have h := C20_run_agrees_with_process_finalizer regA exDeleting (worldOf exDeleting)
    (fun _ _ => rfl)
  exact ⟨h.1, rfl, h.2.2.1⟩

end OperatorUtils
